import Mathlib

/-!
# Verification of `BitFieldEmitter` (reix, `packages/bits`)

Shallow embedding of `src/packages/bits/src/classes/BitFieldEmitter.ts`.

Modelling decisions, all taken from the TypeScript source:

* Handlers are compared by reference identity (JavaScript `Set` membership).
  A handler is modelled as a first-order value: `Handler.base id throwing`
  stands for a user-supplied callback (distinct `id`s model distinct function
  objects, `throwing` records whether the callback throws when invoked), and
  `Handler.onceWrap fresh inner bitsHint` stands for the closure allocated by
  `once` (`fresh` models the identity of that closure, `inner` the wrapped
  handler, `bitsHint` the captured `maxBitsHint`).
* A JavaScript `Set` is a duplicate-free list in insertion order;
  `Set.add` appends when absent, `Set.delete` removes the occurrence.
* The class stores `maxBits` and an array of that length which is never
  resized; we keep only the array and define `maxBits` as its length.
* Indexing `this.handlers[i]` out of range yields `undefined` in JavaScript,
  so the subsequent method call (`add` / `delete` / `values`) throws a
  `TypeError`; every operation is therefore `Except`-valued, `.error ()`
  standing for a thrown `TypeError`.
* `code & (1 << i)` on non-negative integers: JavaScript converts both
  operands with `ToInt32`, and the shift count is taken mod 32, so the test
  is "bit `i % 32` of `code mod 2^32`" (`jsBitSet`).
* `emit` iterates `this.handlers[bit].values()` while handlers may delete
  entries from that very set (the `once` adapter removes itself).  A live
  `Set` iterator visits, in insertion order, exactly the not-yet-visited
  elements still present; since no handler ever *adds* entries during a
  call, the iteration is modelled by repeatedly taking the first live
  element not yet visited, with fuel equal to the slot's size at loop entry
  (additions being impossible, no more steps can ever occur).
* The payload type parameter `T` is instantiated at `Nat`; handler calls are
  recorded in a trace as `(handler, data, code)` triples.
-/

/-- A handler value, compared by identity (see the header comment). -/
inductive Handler where
  | base (id : Nat) (throwing : Bool)
  | onceWrap (fresh : Nat) (inner : Handler) (bitsHint : Nat)
deriving DecidableEq, Repr

/-- Does invoking this handler's own body throw?  (`onceWrap` only rethrows
what `inner` or its self-`remove` raise, handled in `invokeHandler`.) -/
def Handler.throwsB : Handler → Bool
  | .base _ t => t
  | .onceWrap _ _ _ => false

/-- Is this a user-supplied callback (as opposed to a `once` adapter)? -/
def Handler.isBase : Handler → Bool
  | .base _ _ => true
  | .onceWrap _ _ _ => false

/-- One recorded handler invocation: `(handler, data, code)`, the handler
being called as `handler(data, code)` in the source. -/
abbrev Invocation := Handler × Nat × Nat

/-- The dispatcher state: `handlers` is the fixed-length array of per-bit
handler sets (`private handlers: Set<BitFieldEventHandler<T>>[]`).  The
source's `maxBits` field always equals the array's length (set once in the
constructor, never resized), so we store only the array. -/
structure BitFieldEmitter where
  handlers : List (List Handler)
deriving DecidableEq, Repr

theorem BitFieldEmitter.ext_handlers {e₁ e₂ : BitFieldEmitter}
    (h : e₁.handlers = e₂.handlers) : e₁ = e₂ := by
  cases e₁; cases e₂; simpa using h

/-- `public maxBits` (constructor parameter, default 32). -/
def BitFieldEmitter.maxBits (e : BitFieldEmitter) : Nat := e.handlers.length

/-- `new BitFieldEmitter(maxBits)`: `maxBits` empty sets. -/
def BitFieldEmitter.new (maxBits : Nat := 32) : BitFieldEmitter :=
  ⟨List.replicate maxBits []⟩

/-- The handler set at bit `i` (empty view for out-of-range reads; writes and
iterations handle the out-of-range `TypeError` separately). -/
def BitFieldEmitter.slotAt (e : BitFieldEmitter) (i : Nat) : List Handler :=
  e.handlers[i]?.getD []

/-- JavaScript `Set.prototype.add`: append if absent. -/
def setAdd (s : List Handler) (h : Handler) : List Handler :=
  if h ∈ s then s else s ++ [h]

/-- JavaScript `Set.prototype.delete`: drop the element. -/
def setDelete (s : List Handler) (h : Handler) : List Handler :=
  s.filter (fun g => !decide (g = h))

/-- The truthiness of `code & (1 << i)` for non-negative integer operands:
JavaScript applies `ToInt32` to `code` and reduces the shift count mod 32. -/
def jsBitSet (code i : Nat) : Bool :=
  Nat.testBit (code % 2 ^ 32) (i % 32)

/-- Loop body chain of `on`: for each `i` in the given list (the source runs
`i = 0 .. maxBitsHint-1`), if `code & (1 << i)` then `this.handlers[i].add`,
which throws when `i` is out of range. -/
def onAux (code : Nat) (h : Handler) : List Nat → BitFieldEmitter → Except Unit BitFieldEmitter
  | [], st => .ok st
  | i :: rest, st =>
    if jsBitSet code i then
      match st.handlers[i]? with
      | some slot => onAux code h rest ⟨st.handlers.set i (setAdd slot h)⟩
      | none => .error ()
    else onAux code h rest st

/-- `on(code, handler, maxBitsHint = this.maxBits)`. -/
def BitFieldEmitter.on (e : BitFieldEmitter) (code : Nat) (h : Handler)
    (bitsHint : Nat := e.maxBits) : Except Unit BitFieldEmitter :=
  onAux code h (List.range bitsHint) e

/-- Loop body chain of `remove`: `this.handlers[bit].delete(handler)` for
every `bit` in the list, unconditionally (no bit test in the source). -/
def removeAux (h : Handler) : List Nat → BitFieldEmitter → Except Unit BitFieldEmitter
  | [], st => .ok st
  | bit :: rest, st =>
    match st.handlers[bit]? with
    | some slot => removeAux h rest ⟨st.handlers.set bit (setDelete slot h)⟩
    | none => .error ()

/-- `remove(handler, maxBitsHint = this.maxBits)`. -/
def BitFieldEmitter.remove (e : BitFieldEmitter) (h : Handler)
    (bitsHint : Nat := e.maxBits) : Except Unit BitFieldEmitter :=
  removeAux h (List.range bitsHint) e

/-- Inner loop of `removeGroup` at one bit: delete each handler of the input
collection from that slot (no slot access at all when the collection is
empty). -/
def innerDeletes : List Handler → Nat → BitFieldEmitter → Except Unit BitFieldEmitter
  | [], _, st => .ok st
  | h :: t, bit, st =>
    match st.handlers[bit]? with
    | some slot => innerDeletes t bit ⟨st.handlers.set bit (setDelete slot h)⟩
    | none => .error ()

/-- Outer loop chain of `removeGroup` over the bit positions. -/
def removeGroupAux (hs : List Handler) : List Nat → BitFieldEmitter → Except Unit BitFieldEmitter
  | [], st => .ok st
  | bit :: rest, st =>
    match innerDeletes hs bit st with
    | .ok st' => removeGroupAux hs rest st'
    | .error e => .error e

/-- `removeGroup(handlers, maxBitsHint = this.maxBits)`; the iterable is
modelled as a list (iteration order and multiplicity preserved). -/
def BitFieldEmitter.removeGroup (e : BitFieldEmitter) (hs : List Handler)
    (bitsHint : Nat := e.maxBits) : Except Unit BitFieldEmitter :=
  removeGroupAux hs (List.range bitsHint) e

/-- `once(code, handler, maxBitsHint = this.maxBits)`: registers, via `on`, a
fresh adapter closure that captures `maxBitsHint`; `fresh` models the identity
of the newly allocated closure. -/
def BitFieldEmitter.once (e : BitFieldEmitter) (code : Nat) (h : Handler) (fresh : Nat)
    (bitsHint : Nat := e.maxBits) : Except Unit BitFieldEmitter :=
  e.on code (Handler.onceWrap fresh h bitsHint) bitsHint

/-- Result of calling one handler: the state afterwards, the recorded base
handler invocations (in order), and whether an exception escaped. -/
structure CallRes where
  st : BitFieldEmitter
  trace : List Invocation
  err : Bool
deriving DecidableEq, Repr

/-- Calling a handler as `handler(data, code)`.  A base handler records its
invocation and throws iff its `throwing` flag is set.  A `once` adapter first
calls the wrapped handler, then removes *itself* with its captured
`maxBitsHint` (skipped when the inner call threw; a `TypeError` from that
`remove` itself propagates). -/
def invokeHandler (st : BitFieldEmitter) (h : Handler) (data code : Nat) : CallRes :=
  match h with
  | .base id t => ⟨st, [(.base id t, data, code)], t⟩
  | .onceWrap fresh inner bh =>
    let r := invokeHandler st inner data code
    if r.err then r
    else
      match r.st.remove (.onceWrap fresh inner bh) bh with
      | .ok st₂ => ⟨st₂, r.trace, false⟩
      | .error _ => ⟨r.st, r.trace, true⟩

/-- Result of a dispatch loop: state, trace, error flag, and the `called`
dedup set (insertion order). -/
structure LoopRes where
  st : BitFieldEmitter
  trace : List Invocation
  err : Bool
  called : List Handler
deriving DecidableEq, Repr

/-- The live iteration `for (const handler of this.handlers[bit].values())`
inside `emit`: at every step, the first element of the *current* slot not yet
visited by this iterator is taken; handlers already in `called` are skipped
(`continue`), others are invoked and appended to `called`.  Fuel is the
slot's size at loop entry, which is exact because handlers can only delete
entries (see the header comment). -/
def slotPass : Nat → BitFieldEmitter → Nat → Nat → Nat → List Handler → List Handler → LoopRes
  | 0, st, _, _, _, called, _ => ⟨st, [], false, called⟩
  | fuel + 1, st, bit, code, data, called, visited =>
    match (st.handlers[bit]?.getD []).find? (fun g => !decide (g ∈ visited)) with
    | none => ⟨st, [], false, called⟩
    | some g =>
      if g ∈ called then
        slotPass fuel st bit code data called (visited ++ [g])
      else
        let r := invokeHandler st g data code
        if r.err then ⟨r.st, r.trace, true, called⟩
        else
          let rest := slotPass fuel r.st bit code data (called ++ [g]) (visited ++ [g])
          ⟨rest.st, r.trace ++ rest.trace, rest.err, rest.called⟩

/-- Outer loop of `emit` over bit positions: on a set bit, iterate that slot
(out-of-range slot access on a set bit throws a `TypeError`). -/
def emitLoop : List Nat → BitFieldEmitter → Nat → Nat → List Handler → LoopRes
  | [], st, _, _, called => ⟨st, [], false, called⟩
  | bit :: rest, st, code, data, called =>
    if jsBitSet code bit then
      match st.handlers[bit]? with
      | none => ⟨st, [], true, called⟩
      | some slot =>
        let r := slotPass slot.length st bit code data called []
        if r.err then r
        else
          let r₂ := emitLoop rest r.st code data r.called
          ⟨r₂.st, r.trace ++ r₂.trace, r₂.err, r₂.called⟩
    else emitLoop rest st code data called

/-- Observable outcome of one `emit` call (the transient `called` set of the
source is discarded when the call returns). -/
structure EmitResult where
  st : BitFieldEmitter
  trace : List Invocation
  err : Bool
deriving DecidableEq, Repr

/-- `emit(code, data, maxBitsHint = this.maxBits)`. -/
def BitFieldEmitter.emit (e : BitFieldEmitter) (code data : Nat)
    (bitsHint : Nat := e.maxBits) : EmitResult :=
  let r := emitLoop (List.range bitsHint) e code data []
  ⟨r.st, r.trace, r.err⟩

/-- Run a sequence of `emit(code, data)` calls (default `bitsHint`) in order,
concatenating the traces; an escaping exception stops the sequence. -/
def runEmits (st : BitFieldEmitter) : List (Nat × Nat) → BitFieldEmitter × List Invocation
  | [] => (st, [])
  | (c, d) :: rest =>
    let r := st.emit c d
    if r.err then (r.st, r.trace)
    else
      let p := runEmits r.st rest
      (p.1, r.trace ++ p.2)

/-- Two codes overlap on the default 32-bit dispatcher: some bit position
below 32 is set (in the JavaScript 32-bit sense) in both. -/
def overlaps32 (a b : Nat) : Prop :=
  ∃ i, i < 32 ∧ jsBitSet a i = true ∧ jsBitSet b i = true

/-! ## Specification-side descriptions of dispatch

These reformulate, as plain list functions, the order of handler invocation
the spec describes for `emit`: ascending bit position among the set bits,
insertion order inside one slot, handlers already dispatched in the same
call skipped, delivery stopping at the first throwing handler. -/

/-- The raw sequence `emit` walks: concatenation, in ascending bit order, of
the slots of the set bits. -/
def matchedHandlers (e : BitFieldEmitter) (code : Nat) : List Nat → List Handler
  | [] => []
  | b :: rest => (if jsBitSet code b then e.slotAt b else []) ++ matchedHandlers e code rest

/-- First-occurrence deduplication against an accumulating `seen` list. -/
def dedupF : List Handler → List Handler → List Handler
  | [], _ => []
  | g :: t, seen => if g ∈ seen then dedupF t seen else g :: dedupF t (seen ++ [g])

/-- Prefix strictly before the first throwing handler. -/
def preThrow : List Handler → List Handler
  | [] => []
  | g :: t => if g.throwsB then [] else g :: preThrow t

/-- Delivered prefix: everything before the first throwing handler, plus that
handler itself (whole list when nothing throws). -/
def cutThrow : List Handler → List Handler
  | [] => []
  | g :: t => if g.throwsB then [g] else g :: cutThrow t

/-- The trace entry produced by invoking `g` as `g(data, code)`. -/
def entryOf (data code : Nat) (g : Handler) : Invocation := (g, data, code)

/-- The spec's dispatch order for `emit(code, data, bitsHint)`. -/
def dispatchSeq (e : BitFieldEmitter) (code bitsHint : Nat) : List Handler :=
  dedupF (matchedHandlers e code (List.range bitsHint)) []

/-- Every registered handler is a user-supplied callback (no `once` adapter
present), so no handler mutates the table during `emit`. -/
def allBase (e : BitFieldEmitter) : Prop :=
  ∀ s ∈ e.handlers, ∀ g ∈ s, g.isBase = true

/-- No registered handler throws when invoked. -/
def noThrows (e : BitFieldEmitter) : Prop :=
  ∀ s ∈ e.handlers, ∀ g ∈ s, g.throwsB = false

/-- Every slot is duplicate-free — the `Set` representation invariant. -/
def slotsNodup (e : BitFieldEmitter) : Prop :=
  ∀ s ∈ e.handlers, s.Nodup

instance : DecidablePred allBase := fun e =>
  inferInstanceAs (Decidable (∀ s ∈ e.handlers, ∀ g ∈ s, g.isBase = true))

instance : DecidablePred noThrows := fun e =>
  inferInstanceAs (Decidable (∀ s ∈ e.handlers, ∀ g ∈ s, g.throwsB = false))

instance : DecidablePred slotsNodup := fun e =>
  inferInstanceAs (Decidable (∀ s ∈ e.handlers, s.Nodup))

/-! ## List-level helper lemmas -/

theorem filter_not_mem_nil (l : List Handler) :
    l.filter (fun g => !decide (g ∈ ([] : List Handler))) = l := by
  induction l with
  | nil => rfl
  | cons a t ih => simp_all

theorem filter_cons_of_find? {p : Handler → Bool} {g : Handler} :
    ∀ {l : List Handler}, l.Nodup → l.find? p = some g →
    l.filter p = g :: l.filter (fun x => p x && !decide (x = g)) := by
  intro l
  induction l with
  | nil => intro _ hf; cases hf
  | cons a t ih =>
    intro hnd hf
    rcases List.nodup_cons.mp hnd with ⟨ha, hndt⟩
    by_cases hpa : p a = true
    · rw [List.find?_cons_of_pos _ hpa] at hf
      cases hf
      rw [List.filter_cons_of_pos hpa, List.filter_cons_of_neg (by simp [hpa])]
      have heq : t.filter p = t.filter (fun x => p x && !decide (x = g)) := by
        apply List.filter_congr
        intro x hx
        have hxg : ¬ x = g := fun hxa => ha (hxa ▸ hx)
        simp [hxg]
      rw [heq]
    · rw [List.find?_cons_of_neg _ hpa] at hf
      rw [List.filter_cons_of_neg hpa, List.filter_cons_of_neg (by simp [hpa])]
      exact ih hndt hf

theorem dedupF_append (l₁ l₂ : List Handler) :
    ∀ seen, dedupF (l₁ ++ l₂) seen = dedupF l₁ seen ++ dedupF l₂ (seen ++ dedupF l₁ seen) := by
  induction l₁ with
  | nil => intro seen; simp [dedupF]
  | cons a t ih =>
    intro seen
    by_cases h : a ∈ seen
    · simp only [List.cons_append, dedupF, if_pos h]
      exact ih seen
    · simp only [List.cons_append, dedupF, if_neg h, List.append_eq]
      rw [ih (seen ++ [a])]
      simp [List.append_assoc]

theorem mem_dedupF {g : Handler} :
    ∀ {l seen : List Handler}, g ∈ dedupF l seen ↔ g ∈ l ∧ g ∉ seen := by
  intro l
  induction l with
  | nil => intro seen; simp [dedupF]
  | cons a t ih =>
    intro seen
    by_cases h : a ∈ seen
    · rw [dedupF, if_pos h, ih]
      constructor
      · rintro ⟨hg, hs⟩; exact ⟨List.mem_cons_of_mem _ hg, hs⟩
      · rintro ⟨hg, hs⟩
        rcases List.mem_cons.mp hg with rfl | hg
        · exact absurd h hs
        · exact ⟨hg, hs⟩
    · rw [dedupF, if_neg h]
      by_cases hga : g = a
      · subst hga; simp [h]
      · simp only [List.mem_cons, hga, false_or, ih, List.mem_append,
          List.mem_singleton, or_false]
        tauto

theorem countP_dedupF (g : Handler) :
    ∀ (l seen : List Handler),
      (dedupF l seen).countP (fun x => decide (x = g)) =
        if g ∈ l ∧ g ∉ seen then 1 else 0 := by
  intro l
  induction l with
  | nil => intro seen; simp [dedupF]
  | cons a t ih =>
    intro seen
    by_cases h : a ∈ seen
    · rw [dedupF, if_pos h, ih]
      by_cases hga : g = a
      · subst hga; simp [h]
      · simp [List.mem_cons, hga]
    · rw [dedupF, if_neg h, List.countP_cons, ih]
      by_cases hga : g = a
      · subst hga
        simp [h]
      · have hag : (a = g) = False := eq_false fun hh => hga hh.symm
        simp [hga, hag, h]

theorem cutThrow_eq_self : ∀ {l : List Handler}, l.any Handler.throwsB = false → cutThrow l = l := by
  intro l
  induction l with
  | nil => intro _; rfl
  | cons a t ih =>
    intro h
    rw [List.any_cons] at h
    rcases Bool.or_eq_false_iff.mp h with ⟨h₁, h₂⟩
    rw [cutThrow, if_neg (by simp [h₁]), ih h₂]

theorem preThrow_eq_self : ∀ {l : List Handler}, l.any Handler.throwsB = false → preThrow l = l := by
  intro l
  induction l with
  | nil => intro _; rfl
  | cons a t ih =>
    intro h
    rw [List.any_cons] at h
    rcases Bool.or_eq_false_iff.mp h with ⟨h₁, h₂⟩
    rw [preThrow, if_neg (by simp [h₁]), ih h₂]

theorem cutThrow_append_of_any : ∀ {l₁ : List Handler}, l₁.any Handler.throwsB = true →
    ∀ (l₂ : List Handler), cutThrow (l₁ ++ l₂) = cutThrow l₁ := by
  intro l₁
  induction l₁ with
  | nil => intro h; cases h
  | cons a t ih =>
    intro h l₂
    by_cases ha : a.throwsB = true
    · rw [List.cons_append, cutThrow, if_pos ha, cutThrow, if_pos ha]
    · rw [List.any_cons] at h
      rcases Bool.or_eq_true_iff.mp h with h₁ | h₂
      · exact absurd h₁ ha
      · rw [List.cons_append, cutThrow, if_neg ha, cutThrow, if_neg ha, ih h₂]

theorem cutThrow_append_of_not : ∀ {l₁ : List Handler}, l₁.any Handler.throwsB = false →
    ∀ (l₂ : List Handler), cutThrow (l₁ ++ l₂) = l₁ ++ cutThrow l₂ := by
  intro l₁
  induction l₁ with
  | nil => intro _ l₂; rfl
  | cons a t ih =>
    intro h l₂
    rw [List.any_cons] at h
    rcases Bool.or_eq_false_iff.mp h with ⟨h₁, h₂⟩
    rw [List.cons_append, cutThrow, if_neg (by simp [h₁]), ih h₂, List.cons_append]

theorem preThrow_append_of_any : ∀ {l₁ : List Handler}, l₁.any Handler.throwsB = true →
    ∀ (l₂ : List Handler), preThrow (l₁ ++ l₂) = preThrow l₁ := by
  intro l₁
  induction l₁ with
  | nil => intro h; cases h
  | cons a t ih =>
    intro h l₂
    by_cases ha : a.throwsB = true
    · rw [List.cons_append, preThrow, if_pos ha, preThrow, if_pos ha]
    · rw [List.any_cons] at h
      rcases Bool.or_eq_true_iff.mp h with h₁ | h₂
      · exact absurd h₁ ha
      · rw [List.cons_append, preThrow, if_neg ha, preThrow, if_neg ha, ih h₂]

theorem preThrow_append_of_not : ∀ {l₁ : List Handler}, l₁.any Handler.throwsB = false →
    ∀ (l₂ : List Handler), preThrow (l₁ ++ l₂) = l₁ ++ preThrow l₂ := by
  intro l₁
  induction l₁ with
  | nil => intro _ l₂; rfl
  | cons a t ih =>
    intro h l₂
    rw [List.any_cons] at h
    rcases Bool.or_eq_false_iff.mp h with ⟨h₁, h₂⟩
    rw [List.cons_append, preThrow, if_neg (by simp [h₁]), ih h₂, List.cons_append]

theorem mem_matchedHandlers {e : BitFieldEmitter} {code : Nat} {g : Handler} :
    ∀ {bits : List Nat},
      g ∈ matchedHandlers e code bits ↔ ∃ b ∈ bits, jsBitSet code b = true ∧ g ∈ e.slotAt b := by
  intro bits
  induction bits with
  | nil => simp [matchedHandlers]
  | cons b rest ih =>
    rw [matchedHandlers, List.mem_append, ih]
    by_cases hb : jsBitSet code b = true
    · rw [if_pos hb]
      constructor
      · rintro (hg | ⟨b', hb', hbit, hg⟩)
        · exact ⟨b, List.mem_cons_self b rest, hb, hg⟩
        · exact ⟨b', List.mem_cons_of_mem _ hb', hbit, hg⟩
      · rintro ⟨b', hb', hbit, hg⟩
        rcases List.mem_cons.mp hb' with rfl | hb'
        · exact Or.inl hg
        · exact Or.inr ⟨b', hb', hbit, hg⟩
    · rw [if_neg hb]
      simp only [List.mem_nil_iff, false_or]
      constructor
      · rintro ⟨b', hb', hbit, hg⟩
        exact ⟨b', List.mem_cons_of_mem _ hb', hbit, hg⟩
      · rintro ⟨b', hb', hbit, hg⟩
        rcases List.mem_cons.mp hb' with rfl | hb'
        · exact absurd hbit hb
        · exact ⟨b', hb', hbit, hg⟩

/-! ## Characterisation of the mutating operations -/

theorem onAux_spec (code : Nat) (h : Handler) :
    ∀ (bits : List Nat) (st : BitFieldEmitter), bits.Nodup →
      (∀ i ∈ bits, jsBitSet code i = true → i < st.handlers.length) →
      ∃ st', onAux code h bits st = .ok st' ∧
        st'.handlers.length = st.handlers.length ∧
        ∀ j, st'.handlers[j]? =
          if j ∈ bits ∧ jsBitSet code j = true
          then (st.handlers[j]?).map (fun s => setAdd s h)
          else st.handlers[j]? := by
  intro bits
  induction bits with
  | nil =>
    intro st _ _
    exact ⟨st, rfl, rfl, fun j => by simp⟩
  | cons i rest ih =>
    intro st hnd hlen
    rcases List.nodup_cons.mp hnd with ⟨hi, hndr⟩
    by_cases hbit : jsBitSet code i = true
    · have hilen : i < st.handlers.length := hlen i (List.mem_cons_self i rest) hbit
      have hget : st.handlers[i]? = some st.handlers[i] := List.getElem?_eq_getElem hilen
      obtain ⟨st', hok, hlen', hj⟩ :=
        ih ⟨st.handlers.set i (setAdd st.handlers[i] h)⟩ hndr
          (fun b hb hbitb => by
            simpa using hlen b (List.mem_cons_of_mem _ hb) hbitb)
      have hrun : onAux code h (i :: rest) st =
          onAux code h rest ⟨st.handlers.set i (setAdd st.handlers[i] h)⟩ := by
        simp only [onAux, if_pos hbit, hget]
      refine ⟨st', hrun ▸ hok, by simpa using hlen', ?_⟩
      intro j
      have hj₁ : (⟨st.handlers.set i (setAdd st.handlers[i] h)⟩ : BitFieldEmitter).handlers[j]? =
          if i = j then some (setAdd st.handlers[i] h) else st.handlers[j]? := by
        simp [List.getElem?_set, hilen]
      rw [hj j]
      by_cases hji : j = i
      · subst hji
        rw [if_neg (fun hc => hi hc.1), hj₁, if_pos rfl,
            if_pos ⟨List.mem_cons_self j rest, hbit⟩, hget]
        rfl
      · have hj₁' : (⟨st.handlers.set i (setAdd st.handlers[i] h)⟩ : BitFieldEmitter).handlers[j]? =
            st.handlers[j]? := by
          rw [hj₁, if_neg (fun hij => hji hij.symm)]
        rw [hj₁']
        by_cases hjr : j ∈ rest ∧ jsBitSet code j = true
        · rw [if_pos hjr, if_pos ⟨List.mem_cons_of_mem _ hjr.1, hjr.2⟩]
        · rw [if_neg hjr, if_neg (fun hc => by
            rcases List.mem_cons.mp hc.1 with rfl | hjr2
            · exact hji rfl
            · exact hjr ⟨hjr2, hc.2⟩)]
    · have hrun : onAux code h (i :: rest) st = onAux code h rest st := by
        simp only [onAux, if_neg hbit]
      obtain ⟨st', hok, hlen', hj⟩ :=
        ih st hndr (fun b hb hbitb => hlen b (List.mem_cons_of_mem _ hb) hbitb)
      refine ⟨st', hrun ▸ hok, hlen', ?_⟩
      intro j
      rw [hj j]
      by_cases hjr : j ∈ rest ∧ jsBitSet code j = true
      · rw [if_pos hjr, if_pos ⟨List.mem_cons_of_mem _ hjr.1, hjr.2⟩]
      · rw [if_neg hjr, if_neg (fun hc => by
          rcases List.mem_cons.mp hc.1 with rfl | hjr2
          · exact hbit hc.2
          · exact hjr ⟨hjr2, hc.2⟩)]

theorem on_spec (st : BitFieldEmitter) (code : Nat) (h : Handler) (bitsHint : Nat)
    (hb : bitsHint ≤ st.handlers.length) :
    ∃ st', st.on code h bitsHint = .ok st' ∧
      st'.handlers.length = st.handlers.length ∧
      ∀ j, st'.handlers[j]? =
        if j < bitsHint ∧ jsBitSet code j = true
        then (st.handlers[j]?).map (fun s => setAdd s h)
        else st.handlers[j]? := by
  obtain ⟨st', hok, hlen', hj⟩ :=
    onAux_spec code h (List.range bitsHint) st (List.nodup_range _)
      (fun i hib _ => lt_of_lt_of_le (List.mem_range.mp hib) hb)
  refine ⟨st', hok, hlen', fun j => ?_⟩
  rw [hj j]
  by_cases hjb : j < bitsHint ∧ jsBitSet code j = true
  · rw [if_pos ⟨List.mem_range.mpr hjb.1, hjb.2⟩, if_pos hjb]
  · rw [if_neg (fun hc => hjb ⟨List.mem_range.mp hc.1, hc.2⟩), if_neg hjb]

theorem removeAux_spec (h : Handler) :
    ∀ (bits : List Nat) (st : BitFieldEmitter), bits.Nodup →
      (∀ b ∈ bits, b < st.handlers.length) →
      ∃ st', removeAux h bits st = .ok st' ∧
        st'.handlers.length = st.handlers.length ∧
        ∀ j, st'.handlers[j]? =
          if j ∈ bits then (st.handlers[j]?).map (fun s => setDelete s h)
          else st.handlers[j]? := by
  intro bits
  induction bits with
  | nil =>
    intro st _ _
    exact ⟨st, rfl, rfl, fun j => by simp⟩
  | cons bit rest ih =>
    intro st hnd hlen
    rcases List.nodup_cons.mp hnd with ⟨hbitr, hndr⟩
    have hblen : bit < st.handlers.length := hlen bit (List.mem_cons_self bit rest)
    have hget : st.handlers[bit]? = some st.handlers[bit] := List.getElem?_eq_getElem hblen
    obtain ⟨st', hok, hlen', hj⟩ :=
      ih ⟨st.handlers.set bit (setDelete st.handlers[bit] h)⟩ hndr
        (fun b hb => by simpa using hlen b (List.mem_cons_of_mem _ hb))
    have hrun : removeAux h (bit :: rest) st =
        removeAux h rest ⟨st.handlers.set bit (setDelete st.handlers[bit] h)⟩ := by
      simp only [removeAux, hget]
    refine ⟨st', hrun ▸ hok, by simpa using hlen', ?_⟩
    intro j
    have hj₁ : (⟨st.handlers.set bit (setDelete st.handlers[bit] h)⟩ : BitFieldEmitter).handlers[j]? =
        if bit = j then some (setDelete st.handlers[bit] h) else st.handlers[j]? := by
      simp [List.getElem?_set, hblen]
    rw [hj j]
    by_cases hji : j = bit
    · subst hji
      rw [if_neg (fun hc => hbitr hc), hj₁, if_pos rfl, if_pos (List.mem_cons_self j rest), hget]
      rfl
    · have hj₁' : (⟨st.handlers.set bit (setDelete st.handlers[bit] h)⟩ : BitFieldEmitter).handlers[j]? =
          st.handlers[j]? := by
        rw [hj₁, if_neg (fun hij => hji hij.symm)]
      rw [hj₁']
      by_cases hjr : j ∈ rest
      · rw [if_pos hjr, if_pos (List.mem_cons_of_mem _ hjr)]
      · rw [if_neg hjr, if_neg (fun hc => by
          rcases List.mem_cons.mp hc with rfl | hjr2
          · exact hji rfl
          · exact hjr hjr2)]

theorem remove_spec (st : BitFieldEmitter) (h : Handler) (bitsHint : Nat)
    (hb : bitsHint ≤ st.handlers.length) :
    ∃ st', st.remove h bitsHint = .ok st' ∧
      st'.handlers.length = st.handlers.length ∧
      ∀ j, st'.handlers[j]? =
        if j < bitsHint then (st.handlers[j]?).map (fun s => setDelete s h)
        else st.handlers[j]? := by
  obtain ⟨st', hok, hlen', hj⟩ :=
    removeAux_spec h (List.range bitsHint) st (List.nodup_range _)
      (fun b hbm => lt_of_lt_of_le (List.mem_range.mp hbm) hb)
  refine ⟨st', hok, hlen', fun j => ?_⟩
  rw [hj j]
  by_cases hjb : j < bitsHint
  · rw [if_pos (List.mem_range.mpr hjb), if_pos hjb]
  · rw [if_neg (fun hc => hjb (List.mem_range.mp hc)), if_neg hjb]

theorem innerDeletes_spec (bit : Nat) :
    ∀ (hs : List Handler) (st : BitFieldEmitter), bit < st.handlers.length →
      ∃ st', innerDeletes hs bit st = .ok st' ∧
        st'.handlers.length = st.handlers.length ∧
        ∀ j, st'.handlers[j]? =
          if j = bit then (st.handlers[j]?).map (fun s => hs.foldl setDelete s)
          else st.handlers[j]? := by
  intro hs
  induction hs with
  | nil =>
    intro st _
    refine ⟨st, rfl, rfl, fun j => ?_⟩
    by_cases hj : j = bit
    · rw [if_pos hj]
      cases st.handlers[j]? <;> rfl
    · rw [if_neg hj]
  | cons h t ih =>
    intro st hblen
    have hget : st.handlers[bit]? = some st.handlers[bit] := List.getElem?_eq_getElem hblen
    obtain ⟨st', hok, hlen', hj⟩ :=
      ih ⟨st.handlers.set bit (setDelete st.handlers[bit] h)⟩ (by simpa using hblen)
    have hrun : innerDeletes (h :: t) bit st =
        innerDeletes t bit ⟨st.handlers.set bit (setDelete st.handlers[bit] h)⟩ := by
      simp only [innerDeletes, hget]
    refine ⟨st', hrun ▸ hok, by simpa using hlen', ?_⟩
    intro j
    have hj₁ : (⟨st.handlers.set bit (setDelete st.handlers[bit] h)⟩ : BitFieldEmitter).handlers[j]? =
        if bit = j then some (setDelete st.handlers[bit] h) else st.handlers[j]? := by
      simp [List.getElem?_set, hblen]
    rw [hj j]
    by_cases hjb : j = bit
    · subst hjb
      rw [if_pos rfl, hj₁, if_pos rfl, if_pos rfl, hget]
      simp [List.foldl_cons]
    · rw [if_neg hjb, if_neg hjb, hj₁, if_neg (fun hc => hjb hc.symm)]

theorem removeGroupAux_spec (hs : List Handler) :
    ∀ (bits : List Nat) (st : BitFieldEmitter), bits.Nodup →
      (∀ b ∈ bits, b < st.handlers.length) →
      ∃ st', removeGroupAux hs bits st = .ok st' ∧
        st'.handlers.length = st.handlers.length ∧
        ∀ j, st'.handlers[j]? =
          if j ∈ bits then (st.handlers[j]?).map (fun s => hs.foldl setDelete s)
          else st.handlers[j]? := by
  intro bits
  induction bits with
  | nil =>
    intro st _ _
    exact ⟨st, rfl, rfl, fun j => by simp⟩
  | cons bit rest ih =>
    intro st hnd hlen
    rcases List.nodup_cons.mp hnd with ⟨hbitr, hndr⟩
    obtain ⟨st₁, hok₁, hlen₁, hj₁⟩ :=
      innerDeletes_spec bit hs st (hlen bit (List.mem_cons_self bit rest))
    obtain ⟨st', hok, hlen', hj⟩ :=
      ih st₁ hndr (fun b hb => hlen₁ ▸ hlen b (List.mem_cons_of_mem _ hb))
    have hrun : removeGroupAux hs (bit :: rest) st = removeGroupAux hs rest st₁ := by
      simp only [removeGroupAux, hok₁]
    refine ⟨st', hrun ▸ hok, by rw [hlen', hlen₁], ?_⟩
    intro j
    rw [hj j, hj₁ j]
    by_cases hjb : j = bit
    · subst hjb
      rw [if_neg (fun hc => hbitr hc), if_pos rfl, if_pos (List.mem_cons_self j rest)]
    · rw [if_neg hjb]
      by_cases hjr : j ∈ rest
      · rw [if_pos hjr, if_pos (List.mem_cons_of_mem _ hjr)]
      · rw [if_neg hjr, if_neg (fun hc => by
          rcases List.mem_cons.mp hc with rfl | hjr2
          · exact hjb rfl
          · exact hjr hjr2)]

/-- Calling `remove(h, bitsHint)` once for each handler of `hs`, in order,
stopping at the first thrown error — the sequential program the spec compares
`removeGroup` against. -/
def seqRemoveAll (st : BitFieldEmitter) (hs : List Handler) (bitsHint : Nat) :
    Except Unit BitFieldEmitter :=
  match hs with
  | [] => .ok st
  | h :: t =>
    match st.remove h bitsHint with
    | .ok st' => seqRemoveAll st' t bitsHint
    | .error e => .error e

theorem seqRemoveAll_spec (bitsHint : Nat) :
    ∀ (hs : List Handler) (st : BitFieldEmitter), bitsHint ≤ st.handlers.length →
      ∃ st', seqRemoveAll st hs bitsHint = .ok st' ∧
        st'.handlers.length = st.handlers.length ∧
        ∀ j, st'.handlers[j]? =
          if j < bitsHint then (st.handlers[j]?).map (fun s => hs.foldl setDelete s)
          else st.handlers[j]? := by
  intro hs
  induction hs with
  | nil =>
    intro st _
    refine ⟨st, rfl, rfl, fun j => ?_⟩
    by_cases hj : j < bitsHint
    · rw [if_pos hj]
      cases st.handlers[j]? <;> rfl
    · rw [if_neg hj]
  | cons h t ih =>
    intro st hble
    obtain ⟨st₁, hok₁, hlen₁, hj₁⟩ := remove_spec st h bitsHint hble
    obtain ⟨st', hok, hlen', hj⟩ := ih st₁ (hlen₁ ▸ hble)
    have hrun : seqRemoveAll st (h :: t) bitsHint = seqRemoveAll st₁ t bitsHint := by
      simp only [seqRemoveAll, hok₁]
    refine ⟨st', hrun ▸ hok, by rw [hlen', hlen₁], ?_⟩
    intro j
    rw [hj j, hj₁ j]
    by_cases hjb : j < bitsHint
    · rw [if_pos hjb, if_pos hjb, if_pos hjb]
      cases st.handlers[j]? <;> simp [List.foldl_cons]
    · rw [if_neg hjb, if_neg hjb, if_neg hjb]

/-! ## Characterisation of `emit` on adapter-free states -/

/-- Expected outcome of dispatching the raw handler sequence `rem` against a
dedup set `called`: the surviving handlers in order, cut at the first
throwing one, on an unchanged table. -/
def passSpec (rem called : List Handler) (data code : Nat) (st : BitFieldEmitter) : LoopRes :=
  ⟨st,
   (cutThrow (dedupF rem called)).map (entryOf data code),
   (dedupF rem called).any Handler.throwsB,
   called ++
     (if (dedupF rem called).any Handler.throwsB
      then preThrow (dedupF rem called) else dedupF rem called)⟩

theorem passSpec_nil (called : List Handler) (data code : Nat) (st : BitFieldEmitter) :
    passSpec [] called data code st = ⟨st, [], false, called⟩ := by
  simp [passSpec, dedupF, cutThrow]

theorem invokeHandler_base {g : Handler} (hg : g.isBase = true)
    (st : BitFieldEmitter) (data code : Nat) :
    invokeHandler st g data code = ⟨st, [(g, data, code)], g.throwsB⟩ := by
  cases g with
  | base id t => rfl
  | onceWrap fresh inner bh => cases hg

theorem mem_slotAt_mem_handlers {st : BitFieldEmitter} {b : Nat} {g : Handler}
    (hg : g ∈ st.slotAt b) : ∃ s ∈ st.handlers, g ∈ s := by
  rw [BitFieldEmitter.slotAt] at hg
  cases hc : st.handlers[b]? with
  | none => rw [hc] at hg; cases hg
  | some s =>
    rw [hc] at hg
    exact ⟨s, List.getElem?_mem hc, hg⟩

theorem slotPass_spec (st : BitFieldEmitter) (bit code data : Nat)
    (hbase : ∀ g ∈ st.slotAt bit, g.isBase = true)
    (hnd : (st.slotAt bit).Nodup) :
    ∀ (fuel : Nat) (visited called : List Handler),
      ((st.slotAt bit).filter (fun g => !decide (g ∈ visited))).length ≤ fuel →
      slotPass fuel st bit code data called visited =
        passSpec ((st.slotAt bit).filter (fun g => !decide (g ∈ visited))) called data code st := by
  intro fuel
  induction fuel with
  | zero =>
    intro visited called hle
    have hrem : (st.slotAt bit).filter (fun g => !decide (g ∈ visited)) = [] :=
      List.length_eq_zero.mp (Nat.le_zero.mp hle)
    rw [hrem, passSpec_nil]
    rfl
  | succ fuel ih =>
    intro visited called hle
    cases hfind : (st.slotAt bit).find? (fun g => !decide (g ∈ visited)) with
    | none =>
      have hrem : (st.slotAt bit).filter (fun g => !decide (g ∈ visited)) = [] := by
        rw [List.filter_eq_nil_iff]
        intro a ha
        exact List.find?_eq_none.mp hfind a ha
      rw [hrem, passSpec_nil]
      have hfind' : ((st.handlers[bit]?.getD []).find? (fun g => !decide (g ∈ visited))) = none := hfind
      simp only [slotPass, hfind']
    | some g =>
      have hgmem : g ∈ st.slotAt bit := List.mem_of_find?_eq_some hfind
      have hgvis : g ∉ visited := by
        have := List.find?_some hfind
        simpa using this
      have hsplit : (st.slotAt bit).filter (fun g => !decide (g ∈ visited)) =
          g :: (st.slotAt bit).filter
            (fun x => (!decide (x ∈ visited)) && !decide (x = g)) :=
        filter_cons_of_find? hnd hfind
      have hrem' : (st.slotAt bit).filter (fun x => (!decide (x ∈ visited)) && !decide (x = g)) =
          (st.slotAt bit).filter (fun x => !decide (x ∈ visited ++ [g])) := by
        apply List.filter_congr
        intro x _
        have hdec : decide (x ∈ visited ++ [g]) = (decide (x ∈ visited) || decide (x = g)) := by
          simp [List.mem_append]
        rw [hdec, Bool.not_or]
      have hlen' : ((st.slotAt bit).filter (fun x => !decide (x ∈ visited ++ [g]))).length ≤ fuel := by
        rw [← hrem']
        have : ((st.slotAt bit).filter (fun g => !decide (g ∈ visited))).length =
            ((st.slotAt bit).filter (fun x => (!decide (x ∈ visited)) && !decide (x = g))).length + 1 := by
          rw [hsplit]; rfl
        omega
      have hfind' : ((st.handlers[bit]?.getD []).find? (fun g => !decide (g ∈ visited))) = some g := hfind
      by_cases hcall : g ∈ called
      · have hstep : slotPass (fuel + 1) st bit code data called visited =
            slotPass fuel st bit code data called (visited ++ [g]) := by
          simp only [slotPass, hfind', if_pos hcall]
        rw [hstep, ih (visited ++ [g]) called hlen', hsplit, hrem']
        simp only [passSpec, dedupF, if_pos hcall]
      · have hinv : invokeHandler st g data code = ⟨st, [(g, data, code)], g.throwsB⟩ :=
          invokeHandler_base (hbase g hgmem) st data code
        by_cases hthrow : g.throwsB = true
        · have hstep : slotPass (fuel + 1) st bit code data called visited =
              ⟨st, [(g, data, code)], true, called⟩ := by
            simp [slotPass, hfind', hcall, hinv, hthrow]
          rw [hstep, hsplit, hrem']
          simp only [passSpec, dedupF, if_neg hcall]
          rw [cutThrow, if_pos hthrow, preThrow, if_pos hthrow]
          simp [List.any_cons, hthrow, entryOf]
        · have hthrow' : g.throwsB = false := Bool.eq_false_iff.mpr hthrow
          have hstep : slotPass (fuel + 1) st bit code data called visited =
              ⟨(slotPass fuel st bit code data (called ++ [g]) (visited ++ [g])).st,
               (g, data, code) :: (slotPass fuel st bit code data (called ++ [g]) (visited ++ [g])).trace,
               (slotPass fuel st bit code data (called ++ [g]) (visited ++ [g])).err,
               (slotPass fuel st bit code data (called ++ [g]) (visited ++ [g])).called⟩ := by
            simp [slotPass, hfind', hcall, hinv, hthrow']
          rw [hstep, ih (visited ++ [g]) (called ++ [g]) hlen', hsplit, hrem']
          simp only [passSpec, dedupF, if_neg hcall]
          rw [cutThrow, if_neg hthrow, preThrow, if_neg hthrow]
          simp only [List.any_cons, hthrow', Bool.false_or, List.map_cons, entryOf]
          by_cases hany : (dedupF ((st.slotAt bit).filter (fun x => !decide (x ∈ visited ++ [g]))) (called ++ [g])).any Handler.throwsB = true
          · rw [if_pos hany, if_pos hany]
            simp [List.append_assoc]
          · rw [if_neg hany, if_neg hany]
            simp [List.append_assoc]

theorem emitLoop_spec (st : BitFieldEmitter) (code data : Nat)
    (hbase : allBase st) (hnd : slotsNodup st) :
    ∀ (bits : List Nat) (called : List Handler),
      (∀ b ∈ bits, b < st.handlers.length) →
      emitLoop bits st code data called =
        passSpec (matchedHandlers st code bits) called data code st := by
  intro bits
  induction bits with
  | nil =>
    intro called _
    rw [matchedHandlers, passSpec_nil]
    rfl
  | cons b rest ih =>
    intro called hlen
    have hblen : b < st.handlers.length := hlen b (List.mem_cons_self b rest)
    have hget : st.handlers[b]? = some st.handlers[b] := List.getElem?_eq_getElem hblen
    have hslot : st.slotAt b = st.handlers[b] := by
      rw [BitFieldEmitter.slotAt, hget]; rfl
    by_cases hbit : jsBitSet code b = true
    · have hbaseb : ∀ g ∈ st.slotAt b, g.isBase = true := by
        rw [hslot]
        exact hbase st.handlers[b] (List.getElem?_mem hget)
      have hndb : (st.slotAt b).Nodup := by
        rw [hslot]
        exact hnd st.handlers[b] (List.getElem?_mem hget)
      have hfilter : (st.slotAt b).filter (fun g => !decide (g ∈ ([] : List Handler))) =
          st.slotAt b := filter_not_mem_nil _
      have hpass := slotPass_spec st b code data hbaseb hndb st.handlers[b].length [] called
        (by rw [hfilter, hslot])
      rw [hfilter] at hpass
      have hmatched : matchedHandlers st code (b :: rest) =
          st.slotAt b ++ matchedHandlers st code rest := by
        rw [matchedHandlers, if_pos hbit]
      have hstep : emitLoop (b :: rest) st code data called =
          (if (slotPass st.handlers[b].length st b code data called []).err = true
           then slotPass st.handlers[b].length st b code data called []
           else
             ⟨(emitLoop rest (slotPass st.handlers[b].length st b code data called []).st code data
                 (slotPass st.handlers[b].length st b code data called []).called).st,
              (slotPass st.handlers[b].length st b code data called []).trace ++
                (emitLoop rest (slotPass st.handlers[b].length st b code data called []).st code data
                  (slotPass st.handlers[b].length st b code data called []).called).trace,
              (emitLoop rest (slotPass st.handlers[b].length st b code data called []).st code data
                (slotPass st.handlers[b].length st b code data called []).called).err,
              (emitLoop rest (slotPass st.handlers[b].length st b code data called []).st code data
                (slotPass st.handlers[b].length st b code data called []).called).called⟩) := by
        simp only [emitLoop, if_pos hbit, hget]
      rw [hstep, hpass, hmatched]
      by_cases hany : (dedupF (st.slotAt b) called).any Handler.throwsB = true
      · rw [if_pos (by simp [passSpec, hany])]
        simp only [passSpec]
        rw [dedupF_append, cutThrow_append_of_any hany, preThrow_append_of_any hany,
            List.any_append, hany]
        simp [hany]
      · have hany' : (dedupF (st.slotAt b) called).any Handler.throwsB = false :=
          Bool.eq_false_iff.mpr hany
        rw [if_neg (by simp [passSpec, hany'])]
        simp only [passSpec]
        rw [hany']
        simp only [Bool.false_eq_true, if_false]
        rw [ih (called ++ dedupF (st.slotAt b) called) (fun x hx => hlen x (List.mem_cons_of_mem _ hx))]
        simp only [passSpec]
        rw [dedupF_append, cutThrow_append_of_not hany', cutThrow_eq_self hany',
            List.any_append, hany', Bool.false_or, List.map_append,
            preThrow_append_of_not hany']
        by_cases hany₂ : (dedupF (matchedHandlers st code rest)
            (called ++ dedupF (st.slotAt b) called)).any Handler.throwsB = true
        · simp [hany₂, List.append_assoc]
        · simp [hany₂, List.append_assoc]
    · have hmatched : matchedHandlers st code (b :: rest) = matchedHandlers st code rest := by
        rw [matchedHandlers, if_neg hbit, List.nil_append]
      have hstep : emitLoop (b :: rest) st code data called =
          emitLoop rest st code data called := by
        simp only [emitLoop, if_neg hbit]
      rw [hstep, hmatched, ih called (fun x hx => hlen x (List.mem_cons_of_mem _ hx))]

theorem emit_spec (st : BitFieldEmitter) (code data bitsHint : Nat)
    (hbase : allBase st) (hnd : slotsNodup st) (hble : bitsHint ≤ st.handlers.length) :
    st.emit code data bitsHint =
      ⟨st, (cutThrow (dispatchSeq st code bitsHint)).map (entryOf data code),
       (dispatchSeq st code bitsHint).any Handler.throwsB⟩ := by
  have h := emitLoop_spec st code data hbase hnd (List.range bitsHint) []
    (fun b hb => lt_of_lt_of_le (List.mem_range.mp hb) hble)
  simp only [BitFieldEmitter.emit, h, passSpec, dispatchSeq]

theorem dispatch_nothrow {st : BitFieldEmitter} (hnt : noThrows st) (code bitsHint : Nat) :
    (dispatchSeq st code bitsHint).any Handler.throwsB = false := by
  rw [List.any_eq_false]
  intro g hg
  rw [dispatchSeq] at hg
  have hg₁ := (mem_dedupF.mp hg).1
  obtain ⟨b, _, _, hslot⟩ := mem_matchedHandlers.mp hg₁
  obtain ⟨s, hs, hgs⟩ := mem_slotAt_mem_handlers hslot
  simp [hnt s hs g hgs]

theorem emit_spec_nothrow (st : BitFieldEmitter) (code data bitsHint : Nat)
    (hbase : allBase st) (hnd : slotsNodup st) (hnt : noThrows st)
    (hble : bitsHint ≤ st.handlers.length) :
    st.emit code data bitsHint =
      ⟨st, (dispatchSeq st code bitsHint).map (entryOf data code), false⟩ := by
  rw [emit_spec st code data bitsHint hbase hnd hble, dispatch_nothrow hnt code bitsHint,
      cutThrow_eq_self (dispatch_nothrow hnt code bitsHint)]

theorem new_getElem? (n j : Nat) :
    (BitFieldEmitter.new n).handlers[j]? = if j < n then some ([] : List Handler) else none := by
  simp [BitFieldEmitter.new, List.getElem?_replicate]

theorem new_length (n : Nat) : (BitFieldEmitter.new n).handlers.length = n := by
  simp [BitFieldEmitter.new]

theorem mem_dispatchSeq {st : BitFieldEmitter} {code bitsHint : Nat} {g : Handler} :
    g ∈ dispatchSeq st code bitsHint ↔
      ∃ b, b < bitsHint ∧ jsBitSet code b = true ∧ g ∈ st.slotAt b := by
  rw [dispatchSeq, mem_dedupF, mem_matchedHandlers]
  constructor
  · rintro ⟨⟨b, hb, hbit, hg⟩, -⟩
    exact ⟨b, List.mem_range.mp hb, hbit, hg⟩
  · rintro ⟨b, hb, hbit, hg⟩
    exact ⟨⟨b, List.mem_range.mpr hb, hbit, hg⟩, List.not_mem_nil g⟩

/-! ## The `once` adapter on a fresh default dispatcher -/

theorem slotAt_new (n j : Nat) : (BitFieldEmitter.new n).slotAt j = [] := by
  rw [BitFieldEmitter.slotAt, new_getElem?]
  split <;> rfl

theorem allBase_new (n : Nat) : allBase (BitFieldEmitter.new n) := by
  intro s hs g hg
  have hse : s = [] := List.eq_of_mem_replicate hs
  subst hse
  cases hg

theorem noThrows_new (n : Nat) : noThrows (BitFieldEmitter.new n) := by
  intro s hs g hg
  have hse : s = [] := List.eq_of_mem_replicate hs
  subst hse
  cases hg

theorem slotsNodup_new (n : Nat) : slotsNodup (BitFieldEmitter.new n) := by
  intro s hs
  have hse : s = [] := List.eq_of_mem_replicate hs
  subst hse
  exact List.nodup_nil

theorem matchedHandlers_new (n c : Nat) :
    ∀ bits, matchedHandlers (BitFieldEmitter.new n) c bits = [] := by
  intro bits
  induction bits with
  | nil => rfl
  | cons b rest ih =>
    rw [matchedHandlers, slotAt_new, ih, List.append_nil, ite_self]

theorem emitLoop_new (c d : Nat) (bits : List Nat) (called : List Handler)
    (hb : ∀ b ∈ bits, b < 32) :
    emitLoop bits (BitFieldEmitter.new 32) c d called = ⟨.new 32, [], false, called⟩ := by
  rw [emitLoop_spec (BitFieldEmitter.new 32) c d (allBase_new 32) (slotsNodup_new 32) bits called
        (fun b hbm => by rw [new_length]; exact hb b hbm),
      matchedHandlers_new, passSpec_nil]

theorem emit_new32 (c d : Nat) :
    (BitFieldEmitter.new 32).emit c d = ⟨.new 32, [], false⟩ := by
  have h := emitLoop_new c d (List.range (BitFieldEmitter.new 32).maxBits) []
    (fun b hbm => by
      have := List.mem_range.mp hbm
      simpa [BitFieldEmitter.maxBits, new_length] using this)
  simp only [BitFieldEmitter.emit, h]

theorem maxBits_new (n : Nat) : (BitFieldEmitter.new n).maxBits = n := new_length n

theorem once_state (code id fresh : Nat) {st0 : BitFieldEmitter}
    (hs : (BitFieldEmitter.new 32).once code (.base id false) fresh = .ok st0) :
    st0.handlers.length = 32 ∧
    ∀ j, st0.slotAt j =
      if jsBitSet code j = true ∧ j < 32
      then [Handler.onceWrap fresh (.base id false) 32]
      else [] := by
  obtain ⟨st', hok, hlen, hj⟩ :=
    on_spec (BitFieldEmitter.new 32) code
      (Handler.onceWrap fresh (.base id false) ((BitFieldEmitter.new 32).maxBits))
      ((BitFieldEmitter.new 32).maxBits)
      (Nat.le_refl _)
  rw [BitFieldEmitter.once] at hs
  rw [hok] at hs
  cases hs
  refine ⟨by rw [hlen, new_length], ?_⟩
  intro j
  rw [BitFieldEmitter.slotAt, hj j]
  by_cases hjc : j < (BitFieldEmitter.new 32).maxBits ∧ jsBitSet code j = true
  · have hj32 : j < 32 := by
      have h1 := hjc.1
      rwa [maxBits_new] at h1
    rw [if_pos hjc, new_getElem?, if_pos hj32, if_pos ⟨hjc.2, hj32⟩]
    simp [setAdd, maxBits_new]
  · have hnc : ¬(jsBitSet code j = true ∧ j < 32) := by
      intro hc
      exact hjc ⟨by rw [maxBits_new]; exact hc.2, hc.1⟩
    rw [if_neg hjc, if_neg hnc, new_getElem?]
    split <;> rfl

theorem remove_adapter_eq_new (A : Handler) {st0 : BitFieldEmitter}
    (hlen : st0.handlers.length = 32)
    (hsl : ∀ j, st0.slotAt j = [A] ∨ st0.slotAt j = []) :
    st0.remove A 32 = .ok (BitFieldEmitter.new 32) := by
  obtain ⟨st', hok, hlen', hj⟩ := remove_spec st0 A 32 (le_of_eq hlen.symm)
  rw [hok]
  congr 1
  apply BitFieldEmitter.ext_handlers
  apply List.ext_getElem?
  intro j
  rw [hj j, new_getElem?]
  by_cases hj32 : j < 32
  · rw [if_pos hj32, if_pos hj32]
    have hjlen : j < st0.handlers.length := by rw [hlen]; exact hj32
    have hget : st0.handlers[j]? = some st0.handlers[j] := List.getElem?_eq_getElem hjlen
    have hslot : st0.slotAt j = st0.handlers[j] := by
      rw [BitFieldEmitter.slotAt, hget]; rfl
    rw [hget]
    rcases hsl j with hA | hE
    · rw [hslot] at hA
      rw [hA]
      simp [setDelete]
    · rw [hslot] at hE
      rw [hE]
      rfl
  · rw [if_neg hj32, if_neg hj32]
    exact List.getElem?_eq_none (by rw [hlen]; omega)

theorem invoke_adapter (id fresh d c : Nat) {st0 : BitFieldEmitter}
    (hlen : st0.handlers.length = 32)
    (hsl : ∀ j, st0.slotAt j = [Handler.onceWrap fresh (.base id false) 32] ∨ st0.slotAt j = []) :
    invokeHandler st0 (Handler.onceWrap fresh (.base id false) 32) d c =
      ⟨BitFieldEmitter.new 32, [(.base id false, d, c)], false⟩ := by
  have hrem := remove_adapter_eq_new (Handler.onceWrap fresh (.base id false) 32) hlen hsl
  simp [invokeHandler, hrem]

theorem onceEmitLoop (regCode id fresh c d : Nat) {st0 : BitFieldEmitter}
    (hlen : st0.handlers.length = 32)
    (hslots : ∀ j, st0.slotAt j =
      if jsBitSet regCode j = true ∧ j < 32
      then [Handler.onceWrap fresh (.base id false) 32] else []) :
    ∀ bits : List Nat, (∀ b ∈ bits, b < 32) →
      emitLoop bits st0 c d [] =
        if ∃ b ∈ bits, jsBitSet c b = true ∧ jsBitSet regCode b = true
        then ⟨BitFieldEmitter.new 32, [(.base id false, d, c)], false,
              [Handler.onceWrap fresh (.base id false) 32]⟩
        else ⟨st0, [], false, []⟩ := by
  have hsl : ∀ j, st0.slotAt j = [Handler.onceWrap fresh (.base id false) 32] ∨ st0.slotAt j = [] := by
    intro j
    rw [hslots j]
    split
    · exact Or.inl rfl
    · exact Or.inr rfl
  intro bits
  induction bits with
  | nil =>
    intro _
    rw [if_neg (by simp)]
    rfl
  | cons b rest ih =>
    intro hbs
    have hblen : b < st0.handlers.length := by
      rw [hlen]; exact hbs b (List.mem_cons_self b rest)
    have hsome : st0.handlers[b]? = some (st0.slotAt b) := by
      rw [BitFieldEmitter.slotAt, List.getElem?_eq_getElem hblen]
      rfl
    by_cases hcb : jsBitSet c b = true
    · by_cases hrb : jsBitSet regCode b = true
      · have hsb : st0.slotAt b = [Handler.onceWrap fresh (.base id false) 32] := by
          rw [hslots b]
          exact if_pos ⟨hrb, hbs b (List.mem_cons_self b rest)⟩
        rw [hsb] at hsome
        have hinv := invoke_adapter id fresh d c hlen hsl
        have hrest := emitLoop_new c d rest [Handler.onceWrap fresh (.base id false) 32]
          (fun x hx => hbs x (List.mem_cons_of_mem _ hx))
        rw [if_pos ⟨b, List.mem_cons_self b rest, hcb, hrb⟩]
        simp [emitLoop, slotPass, hcb, hsome, hinv, hrest]
      · have hsb : st0.slotAt b = [] := by
          rw [hslots b]
          exact if_neg (fun hc => hrb hc.1)
        rw [hsb] at hsome
        have hiff : (∃ x ∈ b :: rest, jsBitSet c x = true ∧ jsBitSet regCode x = true) ↔
            (∃ x ∈ rest, jsBitSet c x = true ∧ jsBitSet regCode x = true) := by
          constructor
          · rintro ⟨x, hx, hcx, hrx⟩
            rcases List.mem_cons.mp hx with rfl | hx
            · exact absurd hrx hrb
            · exact ⟨x, hx, hcx, hrx⟩
          · rintro ⟨x, hx, hcx, hrx⟩
            exact ⟨x, List.mem_cons_of_mem _ hx, hcx, hrx⟩
        rw [if_congr hiff rfl rfl, ← ih (fun x hx => hbs x (List.mem_cons_of_mem _ hx))]
        simp [emitLoop, slotPass, hcb, hsome]
    · have hiff : (∃ x ∈ b :: rest, jsBitSet c x = true ∧ jsBitSet regCode x = true) ↔
          (∃ x ∈ rest, jsBitSet c x = true ∧ jsBitSet regCode x = true) := by
        constructor
        · rintro ⟨x, hx, hcx, hrx⟩
          rcases List.mem_cons.mp hx with rfl | hx
          · exact absurd hcx hcb
          · exact ⟨x, hx, hcx, hrx⟩
        · rintro ⟨x, hx, hcx, hrx⟩
          exact ⟨x, List.mem_cons_of_mem _ hx, hcx, hrx⟩
      rw [if_congr hiff rfl rfl, ← ih (fun x hx => hbs x (List.mem_cons_of_mem _ hx))]
      simp [emitLoop, hcb]

instance decOverlaps32 (a b : Nat) : Decidable (overlaps32 a b) :=
  decidable_of_iff (∃ i ∈ List.range 32, jsBitSet a i = true ∧ jsBitSet b i = true)
    (by
      rw [overlaps32]
      constructor
      · rintro ⟨i, hi, h₁, h₂⟩
        exact ⟨i, List.mem_range.mp hi, h₁, h₂⟩
      · rintro ⟨i, hi, h₁, h₂⟩
        exact ⟨i, List.mem_range.mpr hi, h₁, h₂⟩)

theorem onceEmit (regCode id fresh c d : Nat) {st0 : BitFieldEmitter}
    (hlen : st0.handlers.length = 32)
    (hslots : ∀ j, st0.slotAt j =
      if jsBitSet regCode j = true ∧ j < 32
      then [Handler.onceWrap fresh (.base id false) 32] else []) :
    st0.emit c d =
      if overlaps32 c regCode
      then ⟨BitFieldEmitter.new 32, [(.base id false, d, c)], false⟩
      else ⟨st0, [], false⟩ := by
  have hm : st0.maxBits = 32 := hlen
  have h := onceEmitLoop regCode id fresh c d hlen hslots (List.range st0.maxBits)
    (fun b hb => by have := List.mem_range.mp hb; rwa [hm] at this)
  have hiff : (∃ b ∈ List.range st0.maxBits, jsBitSet c b = true ∧ jsBitSet regCode b = true) ↔
      overlaps32 c regCode := by
    rw [overlaps32]
    constructor
    · rintro ⟨b, hb, h₁, h₂⟩
      refine ⟨b, ?_, h₁, h₂⟩
      have := List.mem_range.mp hb
      rwa [hm] at this
    · rintro ⟨i, hi, h₁, h₂⟩
      exact ⟨i, List.mem_range.mpr (by rw [hm]; exact hi), h₁, h₂⟩
  rw [if_congr hiff rfl rfl] at h
  by_cases hov : overlaps32 c regCode
  · rw [if_pos hov] at h
    simp only [BitFieldEmitter.emit, h, if_pos hov]
  · rw [if_neg hov] at h
    simp only [BitFieldEmitter.emit, h, if_neg hov]

theorem runEmits_new32 : ∀ emits : List (Nat × Nat),
    runEmits (BitFieldEmitter.new 32) emits = (BitFieldEmitter.new 32, []) := by
  intro emits
  induction emits with
  | nil => rfl
  | cons cd rest ih =>
    obtain ⟨c, d⟩ := cd
    simp [runEmits, emit_new32, ih]

theorem runEmits_once_quiet (regCode id fresh : Nat) {st0 : BitFieldEmitter}
    (hlen : st0.handlers.length = 32)
    (hslots : ∀ j, st0.slotAt j =
      if jsBitSet regCode j = true ∧ j < 32
      then [Handler.onceWrap fresh (.base id false) 32] else []) :
    ∀ emits : List (Nat × Nat), (∀ x ∈ emits, ¬ overlaps32 x.1 regCode) →
      runEmits st0 emits = (st0, []) := by
  intro emits
  induction emits with
  | nil => intro _; rfl
  | cons cd rest ih =>
    intro hq
    obtain ⟨c, d⟩ := cd
    have hemit := onceEmit regCode id fresh c d hlen hslots
    rw [if_neg (hq (c, d) (List.mem_cons_self _ _))] at hemit
    simp [runEmits, hemit, ih (fun x hx => hq x (List.mem_cons_of_mem _ hx))]

theorem runEmits_once_fires (regCode id fresh : Nat) {st0 : BitFieldEmitter}
    (hlen : st0.handlers.length = 32)
    (hslots : ∀ j, st0.slotAt j =
      if jsBitSet regCode j = true ∧ j < 32
      then [Handler.onceWrap fresh (.base id false) 32] else []) :
    ∀ (pre : List (Nat × Nat)) (c d : Nat) (post : List (Nat × Nat)),
      (∀ x ∈ pre, ¬ overlaps32 x.1 regCode) → overlaps32 c regCode →
      runEmits st0 (pre ++ (c, d) :: post) =
        (BitFieldEmitter.new 32, [(.base id false, d, c)]) := by
  intro pre
  induction pre with
  | nil =>
    intro c d post _ hov
    have hemit := onceEmit regCode id fresh c d hlen hslots
    rw [if_pos hov] at hemit
    simp [runEmits, hemit, runEmits_new32 post]
  | cons p pre' ih =>
    intro c d post hq hov
    obtain ⟨pc, pd⟩ := p
    have hemit := onceEmit regCode id fresh pc pd hlen hslots
    rw [if_neg (hq (pc, pd) (List.mem_cons_self _ _))] at hemit
    simp only [List.cons_append, runEmits, hemit]
    simp [ih c d post (fun x hx => hq x (List.mem_cons_of_mem _ hx)) hov]

/-! ## Registration of a single handler on the default dispatcher -/

theorem on_new32_state (code : Nat) (A : Handler) {st₁ : BitFieldEmitter}
    (hs : (BitFieldEmitter.new 32).on code A = .ok st₁) :
    st₁.handlers.length = 32 ∧
    ∀ j, st₁.slotAt j = if jsBitSet code j = true ∧ j < 32 then [A] else [] := by
  obtain ⟨st', hok, hlen, hj⟩ :=
    on_spec (BitFieldEmitter.new 32) code A ((BitFieldEmitter.new 32).maxBits) (Nat.le_refl _)
  rw [hok] at hs
  cases hs
  refine ⟨by rw [hlen, new_length], ?_⟩
  intro j
  rw [BitFieldEmitter.slotAt, hj j]
  by_cases hjc : j < (BitFieldEmitter.new 32).maxBits ∧ jsBitSet code j = true
  · have hj32 : j < 32 := by
      have h1 := hjc.1
      rwa [maxBits_new] at h1
    rw [if_pos hjc, new_getElem?, if_pos hj32, if_pos ⟨hjc.2, hj32⟩]
    simp [setAdd]
  · have hnc : ¬(jsBitSet code j = true ∧ j < 32) := by
      intro hc
      exact hjc ⟨by rw [maxBits_new]; exact hc.2, hc.1⟩
    rw [if_neg hjc, if_neg hnc, new_getElem?]
    split <;> rfl

theorem allBase_of_single {A : Handler} {st₁ : BitFieldEmitter}
    (hA : A.isBase = true) (hsl : ∀ j, st₁.slotAt j = [A] ∨ st₁.slotAt j = []) :
    allBase st₁ := by
  intro s hs g hg
  obtain ⟨n, hn⟩ := List.getElem?_of_mem hs
  have hslot : st₁.slotAt n = s := by rw [BitFieldEmitter.slotAt, hn]; rfl
  rcases hsl n with h1 | h1 <;> rw [hslot] at h1 <;> subst h1
  · have := List.mem_singleton.mp hg
    subst this
    exact hA
  · cases hg

theorem noThrows_of_single {A : Handler} {st₁ : BitFieldEmitter}
    (hA : A.throwsB = false) (hsl : ∀ j, st₁.slotAt j = [A] ∨ st₁.slotAt j = []) :
    noThrows st₁ := by
  intro s hs g hg
  obtain ⟨n, hn⟩ := List.getElem?_of_mem hs
  have hslot : st₁.slotAt n = s := by rw [BitFieldEmitter.slotAt, hn]; rfl
  rcases hsl n with h1 | h1 <;> rw [hslot] at h1 <;> subst h1
  · have := List.mem_singleton.mp hg
    subst this
    exact hA
  · cases hg

theorem slotsNodup_of_single {A : Handler} {st₁ : BitFieldEmitter}
    (hsl : ∀ j, st₁.slotAt j = [A] ∨ st₁.slotAt j = []) :
    slotsNodup st₁ := by
  intro s hs
  obtain ⟨n, hn⟩ := List.getElem?_of_mem hs
  have hslot : st₁.slotAt n = s := by rw [BitFieldEmitter.slotAt, hn]; rfl
  rcases hsl n with h1 | h1 <;> rw [hslot] at h1 <;> subst h1
  · exact List.nodup_singleton A
  · exact List.nodup_nil

theorem dedupF_of_sub_seen : ∀ (l seen : List Handler), (∀ x ∈ l, x ∈ seen) →
    dedupF l seen = [] := by
  intro l
  induction l with
  | nil => intro seen _; rfl
  | cons a t ih =>
    intro seen hsub
    rw [dedupF, if_pos (hsub a (List.mem_cons_self a t))]
    exact ih seen (fun x hx => hsub x (List.mem_cons_of_mem _ hx))

theorem dedupF_all_eq (h : Handler) : ∀ l : List Handler, (∀ x ∈ l, x = h) →
    dedupF l [] = if l = [] then [] else [h] := by
  intro l hall
  cases l with
  | nil => rfl
  | cons a t =>
    have ha : a = h := hall a (List.mem_cons_self a t)
    subst ha
    rw [if_neg (List.cons_ne_nil a t), dedupF, if_neg (List.not_mem_nil a)]
    rw [dedupF_of_sub_seen t ([] ++ [a]) (fun x hx => by
      have := hall x (List.mem_cons_of_mem _ hx)
      subst this
      simp)]

theorem overlap_iff_land (a b : Nat) :
    (∃ i, i < 32 ∧ jsBitSet a i = true ∧ jsBitSet b i = true) ↔
      ((a % 2 ^ 32) &&& (b % 2 ^ 32)) ≠ 0 := by
  constructor
  · rintro ⟨i, hi, h₁, h₂⟩
    rw [jsBitSet, Nat.mod_eq_of_lt hi] at h₁ h₂
    intro hz
    have ht : Nat.testBit ((a % 2 ^ 32) &&& (b % 2 ^ 32)) i = true := by
      rw [Nat.testBit_land, h₁, h₂]
      rfl
    rw [hz, Nat.zero_testBit] at ht
    cases ht
  · intro hz
    obtain ⟨i, hti⟩ := Nat.ne_zero_implies_bit_true hz
    rw [Nat.testBit_land] at hti
    rcases Bool.and_eq_true_iff.mp hti with ⟨h₁, h₂⟩
    have hlt : a % 2 ^ 32 < 2 ^ 32 := Nat.mod_lt _ (by norm_num)
    have hi : i < 32 := by
      by_contra hge
      have h32 : (2 : Nat) ^ 32 ≤ 2 ^ i := Nat.pow_le_pow_right (by norm_num) (by omega)
      have := Nat.testBit_implies_ge h₁
      omega
    refine ⟨i, hi, ?_, ?_⟩
    · rw [jsBitSet, Nat.mod_eq_of_lt hi]; exact h₁
    · rw [jsBitSet, Nat.mod_eq_of_lt hi]; exact h₂

/-! ## The claims -/

/-- C1: on the default dispatcher (`maxBits = 32`), for every registration
code, handler and emit code (default `bitsHint` on both calls), the handler
registered via `on(code, h)` is invoked by `emit(code', data)` — exactly
once, as `h(data, code')` — iff `code & code' ≠ 0` in the JavaScript 32-bit
sense, and is not invoked otherwise. -/
theorem claim1_on_emit_iff_overlap (code code' data id : Nat) {st₁ : BitFieldEmitter}
    (hreg : (BitFieldEmitter.new 32).on code (Handler.base id false) = .ok st₁) :
    (st₁.emit code' data).trace =
      if ((code % 2 ^ 32) &&& (code' % 2 ^ 32)) ≠ 0
      then [(Handler.base id false, data, code')]
      else [] := by
  obtain ⟨hlen, hchar⟩ := on_new32_state code (Handler.base id false) hreg
  have hsl : ∀ j, st₁.slotAt j = [Handler.base id false] ∨ st₁.slotAt j = [] := by
    intro j
    rw [hchar j]
    split
    · exact Or.inl rfl
    · exact Or.inr rfl
  have hb := @allBase_of_single (Handler.base id false) st₁ rfl hsl
  have hnt := @noThrows_of_single (Handler.base id false) st₁ rfl hsl
  have hnd := slotsNodup_of_single hsl
  have hm : st₁.maxBits = 32 := hlen
  have hemit := emit_spec_nothrow st₁ code' data st₁.maxBits hb hnd hnt (Nat.le_refl _)
  simp only [hemit]
  have hMall : ∀ x ∈ matchedHandlers st₁ code' (List.range st₁.maxBits),
      x = Handler.base id false := by
    intro x hx
    obtain ⟨b, _, _, hxs⟩ := mem_matchedHandlers.mp hx
    rcases hsl b with h1 | h1 <;> rw [h1] at hxs
    · exact List.mem_singleton.mp hxs
    · cases hxs
  rw [dispatchSeq, dedupF_all_eq _ _ hMall]
  by_cases hland : ((code % 2 ^ 32) &&& (code' % 2 ^ 32)) ≠ 0
  · rw [if_pos hland]
    obtain ⟨i, hi, h₁, h₂⟩ := (overlap_iff_land code code').mpr hland
    have hMne : matchedHandlers st₁ code' (List.range st₁.maxBits) ≠ [] := by
      intro hMnil
      have hmem : Handler.base id false ∈ matchedHandlers st₁ code' (List.range st₁.maxBits) :=
        mem_matchedHandlers.mpr
          ⟨i, List.mem_range.mpr (by rw [hm]; exact hi), h₂, by rw [hchar i]; simp [h₁, hi]⟩
      rw [hMnil] at hmem
      cases hmem
    rw [if_neg hMne]
    rfl
  · rw [if_neg hland]
    have hMnil : matchedHandlers st₁ code' (List.range st₁.maxBits) = [] := by
      rw [List.eq_nil_iff_forall_not_mem]
      intro x hx
      obtain ⟨b, _, hbit, hxs⟩ := mem_matchedHandlers.mp hx
      rw [hchar b] at hxs
      by_cases hc : jsBitSet code b = true ∧ b < 32
      · exact hland ((overlap_iff_land code code').mp ⟨b, hc.2, hc.1, hbit⟩)
      · rw [if_neg hc] at hxs
        cases hxs
    rw [if_pos hMnil]
    rfl

/-- Witness for C1 at `code = 0b011`, `code' = 0b101`, `data = 99`. -/
theorem claim1_witness :
    (BitFieldEmitter.new 32).on 3 (Handler.base 0 false) =
      .ok (⟨[[Handler.base 0 false], [Handler.base 0 false]] ++ List.replicate 30 []⟩ :
        BitFieldEmitter) ∧
    ((⟨[[Handler.base 0 false], [Handler.base 0 false]] ++ List.replicate 30 []⟩ :
        BitFieldEmitter).emit 5 99).trace =
      (if ((3 % 2 ^ 32) &&& (5 % 2 ^ 32)) ≠ 0
       then [(Handler.base 0 false, 99, 5)]
       else []) :=
  ⟨rfl, claim1_on_emit_iff_overlap 3 5 99 0 rfl⟩

theorem setAdd_idem (s : List Handler) (h : Handler) : setAdd (setAdd s h) h = setAdd s h := by
  have hmem : h ∈ setAdd s h := by
    by_cases hm : h ∈ s
    · rw [setAdd, if_pos hm]; exact hm
    · rw [setAdd, if_neg hm]; simp
  rw [setAdd, if_pos hmem]

theorem setDelete_not_mem {s : List Handler} {h : Handler} (hm : h ∉ s) : setDelete s h = s := by
  rw [setDelete, List.filter_eq_self]
  intro a ha
  simp only [Bool.not_eq_true', decide_eq_false_iff_not]
  intro hah
  exact hm (hah ▸ ha)

theorem not_mem_setDelete (s : List Handler) (h : Handler) : h ∉ setDelete s h := by
  rw [setDelete]
  intro hm
  have := List.of_mem_filter hm
  simp at this

theorem mem_of_mem_setDelete {s : List Handler} {g h : Handler} (hm : g ∈ setDelete s h) :
    g ∈ s := List.mem_of_mem_filter hm

theorem mem_cutThrow_sub {g : Handler} : ∀ {l : List Handler}, g ∈ cutThrow l → g ∈ l := by
  intro l
  induction l with
  | nil => intro hg; cases hg
  | cons a t ih =>
    intro hg
    rw [cutThrow] at hg
    by_cases ha : a.throwsB = true
    · rw [if_pos ha] at hg
      have hga := List.mem_singleton.mp hg
      rw [hga]
      exact List.mem_cons_self _ _
    · rw [if_neg ha] at hg
      rcases List.mem_cons.mp hg with hga | hg
      · rw [hga]
        exact List.mem_cons_self _ _
      · exact List.mem_cons_of_mem _ (ih hg)

theorem mem_slotAt_lt {st : BitFieldEmitter} {j : Nat} {g : Handler}
    (hg : g ∈ st.slotAt j) : j < st.handlers.length := by
  by_contra hge
  have : st.handlers[j]? = none := List.getElem?_eq_none (by omega)
  rw [BitFieldEmitter.slotAt, this] at hg
  cases hg

theorem remove_preserves {st st' : BitFieldEmitter} {h : Handler} {bitsHint : Nat}
    (hj : ∀ j, st'.handlers[j]? =
      if j < bitsHint then (st.handlers[j]?).map (fun s => setDelete s h)
      else st.handlers[j]?) :
    (allBase st → allBase st') ∧ (slotsNodup st → slotsNodup st') ∧
    (noThrows st → noThrows st') := by
  have key : ∀ s' ∈ st'.handlers, ∃ s ∈ st.handlers, s' = setDelete s h ∨ s' = s := by
    intro s' hs'
    obtain ⟨j, hjs⟩ := List.getElem?_of_mem hs'
    rw [hj j] at hjs
    by_cases hjb : j < bitsHint
    · rw [if_pos hjb] at hjs
      cases hc : st.handlers[j]? with
      | none => rw [hc] at hjs; cases hjs
      | some s =>
        rw [hc] at hjs
        simp only [Option.map_some'] at hjs
        exact ⟨s, List.getElem?_mem hc, Or.inl (Option.some.inj hjs).symm⟩
    · rw [if_neg hjb] at hjs
      exact ⟨s', List.getElem?_mem hjs, Or.inr rfl⟩
  refine ⟨?_, ?_, ?_⟩
  · intro hb s' hs' g hg
    obtain ⟨s, hs, hcase⟩ := key s' hs'
    rcases hcase with h1 | h1
    · exact hb s hs g (mem_of_mem_setDelete (h1 ▸ hg))
    · exact hb s hs g (h1 ▸ hg)
  · intro hn s' hs'
    obtain ⟨s, hs, hcase⟩ := key s' hs'
    rcases hcase with h1 | h1
    · rw [h1]
      exact (hn s hs).filter _
    · rw [h1]
      exact hn s hs
  · intro ht s' hs' g hg
    obtain ⟨s, hs, hcase⟩ := key s' hs'
    rcases hcase with h1 | h1
    · exact ht s hs g (mem_of_mem_setDelete (h1 ▸ hg))
    · exact ht s hs g (h1 ▸ hg)

/-- C2: a handler registered on two (or more) distinct bits that are all set
in the emitted code is invoked exactly once by one `emit` call, receiving
`(data, code)`; the dedup set is transient — the dispatcher state is
unchanged, so an identical second `emit` reproduces the same trace. -/
theorem claim2_dedup_once (st : BitFieldEmitter) (code data bitsHint : Nat) (h : Handler)
    (b₁ b₂ : Nat)
    (hbase : allBase st) (hnt : noThrows st) (hnd : slotsNodup st)
    (hble : bitsHint ≤ st.maxBits)
    (hne : b₁ ≠ b₂) (hb₁ : b₁ < bitsHint) (hb₂ : b₂ < bitsHint)
    (hbit₁ : jsBitSet code b₁ = true) (hbit₂ : jsBitSet code b₂ = true)
    (hm₁ : h ∈ st.slotAt b₁) (hm₂ : h ∈ st.slotAt b₂) :
    (st.emit code data bitsHint).st = st ∧
    (st.emit code data bitsHint).trace.countP (fun e => decide (e.1 = h)) = 1 ∧
    (h, data, code) ∈ (st.emit code data bitsHint).trace ∧
    (st.emit code data bitsHint).err = false ∧
    ((st.emit code data bitsHint).st.emit code data bitsHint).trace =
      (st.emit code data bitsHint).trace := by
  have hemit := emit_spec_nothrow st code data bitsHint hbase hnd hnt hble
  have hcomp : ((fun e : Invocation => decide (e.1 = h)) ∘ entryOf data code) =
      fun x => decide (x = h) := rfl
  have hself : (st.emit code data bitsHint).st = st := by simp only [hemit]
  refine ⟨hself, ?_, ?_, by simp only [hemit], by rw [hself]⟩
  · simp only [hemit]
    rw [List.countP_map, hcomp, dispatchSeq, countP_dedupF]
    rw [if_pos ⟨mem_matchedHandlers.mpr
      ⟨b₁, List.mem_range.mpr hb₁, hbit₁, hm₁⟩, List.not_mem_nil h⟩]
  · simp only [hemit]
    exact List.mem_map_of_mem (entryOf data code)
      (mem_dispatchSeq.mpr ⟨b₁, hb₁, hbit₁, hm₁⟩)

/-- Witness for C2: one handler on bits 0 and 1, `emit 0b11`. -/
theorem claim2_witness :
    ((⟨[[Handler.base 0 false], [Handler.base 0 false]]⟩ : BitFieldEmitter).emit 3 7 2).st =
      (⟨[[Handler.base 0 false], [Handler.base 0 false]]⟩ : BitFieldEmitter) ∧
    ((⟨[[Handler.base 0 false], [Handler.base 0 false]]⟩ : BitFieldEmitter).emit 3 7 2).trace.countP
      (fun e => decide (e.1 = Handler.base 0 false)) = 1 ∧
    (Handler.base 0 false, 7, 3) ∈
      ((⟨[[Handler.base 0 false], [Handler.base 0 false]]⟩ : BitFieldEmitter).emit 3 7 2).trace ∧
    ((⟨[[Handler.base 0 false], [Handler.base 0 false]]⟩ : BitFieldEmitter).emit 3 7 2).err = false ∧
    (((⟨[[Handler.base 0 false], [Handler.base 0 false]]⟩ : BitFieldEmitter).emit 3 7 2).st.emit 3 7
        2).trace =
      ((⟨[[Handler.base 0 false], [Handler.base 0 false]]⟩ : BitFieldEmitter).emit 3 7 2).trace :=
  claim2_dedup_once ⟨[[Handler.base 0 false], [Handler.base 0 false]]⟩ 3 7 2
    (Handler.base 0 false) 0 1 (by decide) (by decide) (by decide) (by decide) (by decide)
    (by decide) (by decide) (by decide) (by decide) (by decide) (by decide)

/-- C3: after `once(code, h)` on a fresh default dispatcher, a sequence of
emits with no overlap never fires `h` and leaves the registration in place;
as soon as one emit's code overlaps `code` (on any number of bits), `h` fires
exactly once — with that emit call's data and code — the adapter is removed
from every bit (the state collapses to the fresh dispatcher), and no later
emit fires `h` again, whatever its code. -/
theorem claim3_once (code id fresh : Nat) {st0 : BitFieldEmitter}
    (hs : (BitFieldEmitter.new 32).once code (Handler.base id false) fresh = .ok st0) :
    (∀ emits : List (Nat × Nat), (∀ x ∈ emits, ¬ overlaps32 x.1 code) →
        runEmits st0 emits = (st0, [])) ∧
    (∀ (pre : List (Nat × Nat)) (c d : Nat) (post : List (Nat × Nat)),
      (∀ x ∈ pre, ¬ overlaps32 x.1 code) → overlaps32 c code →
      runEmits st0 (pre ++ (c, d) :: post) =
        (BitFieldEmitter.new 32, [(Handler.base id false, d, c)])) := by
  obtain ⟨hlen, hslots⟩ := once_state code id fresh hs
  exact ⟨runEmits_once_quiet code id fresh hlen hslots,
         runEmits_once_fires code id fresh hlen hslots⟩

/-- Witness for C3 — the spec's own scenario: `once(0b011, h)` then
`emit(0b001, 10)`, `emit(0b010, 20)`, `emit(0b010, 30)`: `h` fires exactly
once, for the first emit, and the table is empty afterwards. -/
theorem claim3_witness :
    runEmits
      (⟨[[Handler.onceWrap 0 (Handler.base 0 false) 32],
         [Handler.onceWrap 0 (Handler.base 0 false) 32]] ++ List.replicate 30 []⟩ :
        BitFieldEmitter) [(1, 10), (2, 20), (2, 30)] =
      (BitFieldEmitter.new 32, [(Handler.base 0 false, 10, 1)]) :=
  (claim3_once 3 0 0
    (rfl :
      (BitFieldEmitter.new 32).once 3 (Handler.base 0 false) 0 =
        .ok (⟨[[Handler.onceWrap 0 (Handler.base 0 false) 32],
               [Handler.onceWrap 0 (Handler.base 0 false) 32]] ++ List.replicate 30 []⟩ :
          BitFieldEmitter))).2
    [] 1 10 [(2, 20), (2, 30)] (by simp) (by decide)

/-- C4: after `remove(h)` with the default `bitsHint`, on an adapter-free
dispatcher, no subsequent `emit` (default `bitsHint`) with any code invokes
`h`; and if `h` was not registered on any bit, the removal is a no-op (the
state is unchanged) — and it is never an error. -/
theorem claim4_removal_complete (st : BitFieldEmitter) (h : Handler) {st' : BitFieldEmitter}
    (hbase : allBase st) (hnd : slotsNodup st)
    (hrem : st.remove h = .ok st') :
    (∀ code data,
      ((st'.emit code data).trace).countP (fun e => decide (e.1 = h)) = 0 ∧
      (st'.emit code data).st = st') ∧
    ((∀ j, h ∉ st.slotAt j) → st' = st) := by
  obtain ⟨st₁, hok, hlen, hj⟩ := remove_spec st h st.maxBits (Nat.le_refl _)
  rw [hok] at hrem
  cases hrem
  have hnoth : ∀ j, h ∉ st'.slotAt j := by
    intro j hmem
    have hjlt : j < st'.handlers.length := mem_slotAt_lt hmem
    rw [BitFieldEmitter.slotAt] at hmem
    rw [hj j] at hmem
    by_cases hjb : j < st.maxBits
    · rw [if_pos hjb] at hmem
      cases hc : st.handlers[j]? with
      | none => rw [hc] at hmem; cases hmem
      | some s =>
        rw [hc] at hmem
        exact not_mem_setDelete s h hmem
    · rw [if_neg hjb] at hmem
      have : st.handlers[j]? = none := List.getElem?_eq_none (by
        have : st.maxBits ≤ j := Nat.le_of_not_lt hjb
        exact this)
      rw [this] at hmem
      cases hmem
  obtain ⟨hb', hn', ht'⟩ := remove_preserves hj
  refine ⟨?_, ?_⟩
  · intro code data
    have hemit := emit_spec st' code data st'.maxBits (hb' hbase) (hn' hnd) (Nat.le_refl _)
    refine ⟨?_, by simp only [hemit]⟩
    simp only [hemit]
    rw [List.countP_eq_zero]
    intro e he
    obtain ⟨x, hx, hex⟩ := List.mem_map.mp he
    have hxmem : x ∈ dispatchSeq st' code st'.maxBits := mem_cutThrow_sub hx
    obtain ⟨b, _, _, hxs⟩ := mem_dispatchSeq.mp hxmem
    simp only [← hex, entryOf, decide_eq_true_eq]
    intro hxh
    exact hnoth b (hxh ▸ hxs)
  · intro hnone
    apply BitFieldEmitter.ext_handlers
    apply List.ext_getElem?
    intro j
    rw [hj j]
    by_cases hjb : j < st.maxBits
    · rw [if_pos hjb]
      cases hc : st.handlers[j]? with
      | none => rfl
      | some s =>
        have hslot : st.slotAt j = s := by rw [BitFieldEmitter.slotAt, hc]; rfl
        simp only [Option.map_some']
        rw [setDelete_not_mem (hslot ▸ hnone j)]
    · rw [if_neg hjb]

/-- Witness for C4: `h` on bits 0 and 1, removed; `emit 0b11` does not invoke
it; removing it again from the now-empty table is a no-op. -/
theorem claim4_witness :
    (((⟨[[], []]⟩ : BitFieldEmitter).emit 3 9).trace.countP
      (fun e => decide (e.1 = Handler.base 0 false)) = 0) ∧
    (((⟨[[], []]⟩ : BitFieldEmitter).emit 3 9).st = ⟨[[], []]⟩) ∧
    ((⟨[[], []]⟩ : BitFieldEmitter).remove (Handler.base 0 false) = .ok ⟨[[], []]⟩) := by
  have h4 := @claim4_removal_complete
    (⟨[[Handler.base 0 false], [Handler.base 0 false]]⟩ : BitFieldEmitter)
    (Handler.base 0 false) (⟨[[], []]⟩ : BitFieldEmitter) (by decide) (by decide) rfl
  exact ⟨(h4.1 3 9).1, (h4.1 3 9).2, rfl⟩

/-- C5 counterexample: the claim as stated is false when `bitsHint` exceeds
`maxBits`.  On a dispatcher with `maxBits = 1`, `on(0b10, h, 2)` reaches
`this.handlers[1]`, which is `undefined`, and `undefined.add` throws a
`TypeError` — the bit at position 1 ≥ maxBits is not silently ignored. -/
theorem claim5_counterexample :
    (BitFieldEmitter.new 1).on 2 (Handler.base 0 false) 2 = .error () := rfl

/-- C5 amended: for `bitsHint ≤ maxBits`, `on(code, handler, bitsHint)`
accepts any non-negative code without error, and only the slots at positions
in `[0, bitsHint)` whose bit is set in (the 32-bit image of) `code` are
touched — bits at or above `bitsHint` are silently ignored.  (When
`bitsHint > maxBits` and a set bit falls at or above `maxBits`, `on` throws
instead, per the counterexample.) -/
theorem claim5_amended (st : BitFieldEmitter) (code : Nat) (h : Handler) (bitsHint : Nat)
    (hble : bitsHint ≤ st.maxBits) :
    st.on code h bitsHint ≠ .error () ∧
    (∀ st', st.on code h bitsHint = .ok st' →
      ∀ j, st'.slotAt j =
        if j < bitsHint ∧ jsBitSet code j = true
        then setAdd (st.slotAt j) h
        else st.slotAt j) := by
  obtain ⟨st₁, hok, hlen, hj⟩ := on_spec st code h bitsHint hble
  refine ⟨?_, ?_⟩
  case _ =>
    rw [hok]
    intro hc
    cases hc
  intro st' hok'
  rw [hok] at hok'
  cases hok'
  intro j
  rw [BitFieldEmitter.slotAt, BitFieldEmitter.slotAt, hj j]
  by_cases hjc : j < bitsHint ∧ jsBitSet code j = true
  · rw [if_pos hjc, if_pos hjc]
    have hjlt : j < st.handlers.length := lt_of_lt_of_le hjc.1 hble
    rw [List.getElem?_eq_getElem hjlt]
    rfl
  · rw [if_neg hjc, if_neg hjc]

/-- Witness for C5 (amended form): `maxBits = 2`, `on(0b111, h, 2)` — the
bit at position 2 is ignored, slots 0 and 1 get the handler. -/
theorem claim5_witness :
    ((⟨[[], []]⟩ : BitFieldEmitter).on 7 (Handler.base 0 false) 2 ≠ .error ()) ∧
    (⟨[[Handler.base 0 false], [Handler.base 0 false]]⟩ : BitFieldEmitter).slotAt 0 =
      (if 0 < 2 ∧ jsBitSet 7 0 = true
       then setAdd ((⟨[[], []]⟩ : BitFieldEmitter).slotAt 0) (Handler.base 0 false)
       else (⟨[[], []]⟩ : BitFieldEmitter).slotAt 0) :=
  ⟨(claim5_amended (⟨[[], []]⟩ : BitFieldEmitter) 7 (Handler.base 0 false) 2 (by decide)).1,
   (claim5_amended (⟨[[], []]⟩ : BitFieldEmitter) 7 (Handler.base 0 false) 2 (by decide)).2
     ⟨[[Handler.base 0 false], [Handler.base 0 false]]⟩ rfl 0⟩

/-- C6: for every dispatcher state and every finite handler collection,
`removeGroup(hs, bitsHint)` (with `bitsHint` within capacity) leaves the
dispatcher in exactly the state produced by calling `remove(h, bitsHint)`
for each handler of the collection in sequence. -/
theorem claim6_removeGroup_eq_seq (st : BitFieldEmitter) (hs : List Handler) (bitsHint : Nat)
    (hble : bitsHint ≤ st.maxBits) :
    st.removeGroup hs bitsHint = seqRemoveAll st hs bitsHint := by
  obtain ⟨st₁, hok₁, hlen₁, hj₁⟩ :=
    removeGroupAux_spec hs (List.range bitsHint) st (List.nodup_range _)
      (fun b hb => lt_of_lt_of_le (List.mem_range.mp hb) hble)
  obtain ⟨st₂, hok₂, hlen₂, hj₂⟩ := seqRemoveAll_spec bitsHint hs st hble
  rw [BitFieldEmitter.removeGroup, hok₁, hok₂]
  congr 1
  apply BitFieldEmitter.ext_handlers
  apply List.ext_getElem?
  intro j
  rw [hj₁ j, hj₂ j]
  by_cases hjb : j < bitsHint
  · rw [if_pos (List.mem_range.mpr hjb), if_pos hjb]
  · rw [if_neg (fun hc => hjb (List.mem_range.mp hc)), if_neg hjb]

/-- Witness for C6 at a two-slot dispatcher and a two-handler group. -/
theorem claim6_witness :
    (⟨[[Handler.base 0 false, Handler.base 1 false], [Handler.base 1 false]]⟩ :
        BitFieldEmitter).removeGroup [Handler.base 0 false, Handler.base 1 false] 2 =
      seqRemoveAll
        (⟨[[Handler.base 0 false, Handler.base 1 false], [Handler.base 1 false]]⟩ :
          BitFieldEmitter) [Handler.base 0 false, Handler.base 1 false] 2 :=
  claim6_removeGroup_eq_seq _ _ 2 (by decide)

/-- C7: on an adapter-free, non-throwing dispatcher, `emit` invokes exactly
the handlers of `dispatchSeq` — ascending bit position, within one bit the
slot's insertion order, handlers already invoked in the same call skipped —
and every invoked handler receives the original full `code` (and `data`),
not the single bit that triggered it. -/
theorem claim7_order (st : BitFieldEmitter) (code data bitsHint : Nat)
    (hbase : allBase st) (hnt : noThrows st) (hnd : slotsNodup st)
    (hble : bitsHint ≤ st.maxBits) :
    (st.emit code data bitsHint).trace =
      (dispatchSeq st code bitsHint).map (entryOf data code) ∧
    ∀ e ∈ (st.emit code data bitsHint).trace, e.2.1 = data ∧ e.2.2 = code := by
  have hemit := emit_spec_nothrow st code data bitsHint hbase hnd hnt hble
  refine ⟨by simp only [hemit], ?_⟩
  intro e he
  simp only [hemit] at he
  obtain ⟨x, _, hex⟩ := List.mem_map.mp he
  rw [← hex]
  exact ⟨rfl, rfl⟩

/-- Witness for C7: two slots, a shared handler — order and dedup visible. -/
theorem claim7_witness :
    ((⟨[[Handler.base 0 false], [Handler.base 1 false, Handler.base 0 false]]⟩ :
        BitFieldEmitter).emit 3 5 2).trace =
      (dispatchSeq
        (⟨[[Handler.base 0 false], [Handler.base 1 false, Handler.base 0 false]]⟩ :
          BitFieldEmitter) 3 2).map (entryOf 5 3) :=
  (claim7_order _ 3 5 2 (by decide) (by decide) (by decide) (by decide)).1

/-- C8: if the dispatch sequence of an `emit` call reaches a throwing
handler, the call returns with the exception propagating (`err`), the
handlers before it (and the throwing one) have run, the state is unchanged,
and no later handler of that call is invoked. -/
theorem claim8_throw_aborts (st : BitFieldEmitter) (code data bitsHint : Nat)
    (pre : List Handler) (bad : Handler) (post : List Handler)
    (hbase : allBase st) (hnd : slotsNodup st) (hble : bitsHint ≤ st.maxBits)
    (hsplit : dispatchSeq st code bitsHint = pre ++ bad :: post)
    (hpre : ∀ g ∈ pre, g.throwsB = false) (hbad : bad.throwsB = true) :
    st.emit code data bitsHint = ⟨st, (pre ++ [bad]).map (entryOf data code), true⟩ := by
  have hemit := emit_spec st code data bitsHint hbase hnd hble
  rw [hemit, hsplit]
  have hprea : pre.any Handler.throwsB = false := by
    rw [List.any_eq_false]
    intro x hx
    simp [hpre x hx]
  rw [cutThrow_append_of_not hprea, cutThrow, if_pos hbad]
  simp [List.any_append, List.any_cons, hbad, List.map_append]

/-- Witness for C8: three handlers in one slot, the middle one throws; the
third is never invoked and the error escapes. -/
theorem claim8_witness :
    (⟨[[Handler.base 0 false, Handler.base 1 true, Handler.base 2 false]]⟩ :
        BitFieldEmitter).emit 1 7 1 =
      ⟨⟨[[Handler.base 0 false, Handler.base 1 true, Handler.base 2 false]]⟩,
       ([Handler.base 0 false] ++ [Handler.base 1 true]).map (entryOf 7 1), true⟩ :=
  claim8_throw_aborts _ 1 7 1 [Handler.base 0 false] (Handler.base 1 true)
    [Handler.base 2 false] (by decide) (by decide) (by decide) (by decide)
    (by decide) (by decide)

/-- C9: subscribing is idempotent per bit — repeating the same `on` call (any
`bitsHint` within capacity) leaves the dispatcher state unchanged, because
each slot is a set of handler identities. -/
theorem claim9_on_idempotent (st : BitFieldEmitter) (code : Nat) (h : Handler) (bitsHint : Nat)
    {st' : BitFieldEmitter}
    (hble : bitsHint ≤ st.maxBits)
    (hon : st.on code h bitsHint = .ok st') :
    st'.on code h bitsHint = .ok st' := by
  obtain ⟨st₁, hok₁, hlen₁, hj₁⟩ := on_spec st code h bitsHint hble
  rw [hok₁] at hon
  cases hon
  obtain ⟨st₂, hok₂, hlen₂, hj₂⟩ := on_spec st' code h bitsHint (by rw [hlen₁]; exact hble)
  rw [hok₂]
  congr 1
  apply BitFieldEmitter.ext_handlers
  apply List.ext_getElem?
  intro j
  rw [hj₂ j, hj₁ j]
  by_cases hjc : j < bitsHint ∧ jsBitSet code j = true
  · simp only [if_pos hjc]
    cases st.handlers[j]? with
    | none => rfl
    | some s =>
      simp only [Option.map_some']
      rw [setAdd_idem]
  · simp only [if_neg hjc]

/-- Witness for C9: registering the same handler twice on the same code. -/
theorem claim9_witness :
    (⟨[[Handler.base 0 false], []]⟩ : BitFieldEmitter).on 1 (Handler.base 0 false) 2 =
      .ok (⟨[[Handler.base 0 false], []]⟩ : BitFieldEmitter) :=
  @claim9_on_idempotent (⟨[[], []]⟩ : BitFieldEmitter) 1 (Handler.base 0 false) 2
    (⟨[[Handler.base 0 false], []]⟩ : BitFieldEmitter) (by decide) rfl

/-- C10: `remove(h, bitsHint)` with `bitsHint < maxBits` leaves every slot at
position ≥ `bitsHint` untouched; a handler registered on such a bit remains
registered there and is still invoked by a later default-`bitsHint` `emit`
whose code sets that bit — removal with a reduced hint is not total. -/
theorem claim10_remove_frame (st : BitFieldEmitter) (h : Handler) (bitsHint : Nat)
    {st' : BitFieldEmitter}
    (hlt : bitsHint < st.maxBits)
    (hrem : st.remove h bitsHint = .ok st') :
    (∀ i, bitsHint ≤ i → st'.handlers[i]? = st.handlers[i]?) ∧
    (∀ j code data, allBase st → noThrows st → slotsNodup st →
      bitsHint ≤ j → jsBitSet code j = true → h ∈ st.slotAt j →
      h ∈ st'.slotAt j ∧ (h, data, code) ∈ (st'.emit code data).trace) := by
  obtain ⟨st₁, hok, hlen, hj⟩ := remove_spec st h bitsHint (Nat.le_of_lt hlt)
  rw [hok] at hrem
  cases hrem
  have hframe : ∀ i, bitsHint ≤ i → st'.handlers[i]? = st.handlers[i]? := by
    intro i hi
    rw [hj i, if_neg (by omega)]
  refine ⟨hframe, ?_⟩
  intro j code data hbase hnt hnd hbj hbit hmem
  obtain ⟨hb', hn', ht'⟩ := remove_preserves hj
  have hjlt : j < st.handlers.length := mem_slotAt_lt hmem
  have hslot' : st'.slotAt j = st.slotAt j := by
    rw [BitFieldEmitter.slotAt, BitFieldEmitter.slotAt, hframe j hbj]
  have hmem' : h ∈ st'.slotAt j := hslot' ▸ hmem
  refine ⟨hmem', ?_⟩
  have hemit := emit_spec_nothrow st' code data st'.maxBits (hb' hbase) (hn' hnd) (ht' hnt)
    (Nat.le_refl _)
  simp only [hemit]
  apply List.mem_map_of_mem (entryOf data code)
  refine mem_dispatchSeq.mpr ⟨j, ?_, hbit, hmem'⟩
  show j < st'.handlers.length
  rw [hlen]
  exact hjlt

/-- Witness for C10: one handler on bits 0 and 1, removed with hint 1 — slot
1 survives and still fires on `emit 0b10`. -/
theorem claim10_witness :
    ((⟨[[], [Handler.base 0 false]]⟩ : BitFieldEmitter).handlers[1]? =
      (⟨[[Handler.base 0 false], [Handler.base 0 false]]⟩ : BitFieldEmitter).handlers[1]?) ∧
    (Handler.base 0 false ∈ (⟨[[], [Handler.base 0 false]]⟩ : BitFieldEmitter).slotAt 1 ∧
      (Handler.base 0 false, 5, 2) ∈
        ((⟨[[], [Handler.base 0 false]]⟩ : BitFieldEmitter).emit 2 5).trace) := by
  have h10 := @claim10_remove_frame
    (⟨[[Handler.base 0 false], [Handler.base 0 false]]⟩ : BitFieldEmitter)
    (Handler.base 0 false) 1 (⟨[[], [Handler.base 0 false]]⟩ : BitFieldEmitter)
    (by decide) rfl
  exact ⟨h10.1 1 (Nat.le_refl 1),
         h10.2 1 2 5 (by decide) (by decide) (by decide) (Nat.le_refl 1) (by decide) (by decide)⟩
